import Mathlib

/-!
# RCU hash table (`urcu-ht.c`) and grace periods (`urcu.c`)

A shallow embedding of the RCU-protected, separately chained hash table of
`urcu-ht.c` as a single thread runs it, followed by the writer side of the
grace-period engine of `urcu.c` (see the section on the engine below).  Memory is explicit: nodes live in a heap addressed by non-zero
naturals (`0` is `NULL`), bucket heads and `next` fields hold such addresses,
and every `calloc`, `free` and `call_rcu` is recorded in an event log.

Every function returns an `Option`: `none` stands for undefined behaviour
(a `% 0`, a load through `NULL` or through an address that was never
allocated, an out-of-bounds bucket, a signed overflow of the node counter)
or for a loop that does not come back.  All loops carry fuel; the fuel handed
out by the entry points is `heap.length + 1`, which a walk along a chain of
distinct allocated nodes never uses up.

A node handed to `call_rcu` is reclaimed later by a worker that is not part
of `urcu-ht.c`; it is unlinked by then, and the model simply keeps it
allocated, so `calloc` never hands out an address twice.

`rcu_read_lock` / `rcu_read_unlock` only touch the calling thread's reader
record, which none of the functions below reads, so they leave the modelled
state alone.  `rcu_dereference` is a plain load, `rcu_cmpxchg_pointer`,
`cmpxchg` and `rcu_xchg_pointer` are the usual atomic read-modify-writes,
executed here in one step.
-/

namespace UrcuHt

/-! ## Data model -/

/-- Node flag `NODE_STOLEN`, `(1 << 0)`. -/
def NODE_STOLEN : Nat := 1

/-- Modelled from the spec: the `errno.h` constant `ENOENT` (its Linux value),
which `urcu-ht.c` includes but does not define. -/
def ENOENT : Int := 2

/-- Modelled from the spec: the `errno.h` constant `EEXIST` (its Linux value),
which `urcu-ht.c` includes but does not define. -/
def EEXIST : Int := 17

/-- The bound `INT_MAX` of a 32-bit `int`, the type of the counter that
`ht_delete_all` returns. -/
def INT_MAX : Nat := 2147483647

/-- The in-band miss value of `ht_steal`, `(void *)(unsigned long)-ENOENT`, on a
machine with 64-bit `unsigned long`. -/
def ENOENT_PTR : Nat := (2 ^ 64 - ENOENT.toNat) % 2 ^ 64

/-- The C `struct rcu_ht_node`; `next` is an address (`0` for `NULL`), `key` and
`data` are pointer-sized words. -/
structure rcu_ht_node where
  next : Nat
  key : Nat
  data : Nat
  flags : Nat
deriving DecidableEq, Repr

/-- The C `struct rcu_ht`.  `tbl` is the content of the bucket array, `free_fct`
is a function pointer (`0` for `NULL`), `hash_fct` takes key, length and seed. -/
structure rcu_ht where
  tbl : List Nat
  hash_fct : Nat → Nat → Nat → Nat
  free_fct : Nat
  keylen : Nat
  hashseed : Nat
  size_add : Nat
  size_lookup : Nat

/-- What an allocation or a release refers to. -/
inductive Obj where
  | table
  | buckets
  | node (p : Nat)
deriving DecidableEq, Repr

/-- One entry of the memory-management log. -/
inductive Event where
  | calloc (o : Obj)
  | free (o : Obj)
  | call_rcu_free (o : Obj)
  | call_rcu (fct : Nat) (data : Nat)
deriving DecidableEq, Repr

/-- The modelled state: one table, the node heap (address `p` is cell `p - 1`)
and the log of allocator and `call_rcu` calls, oldest first. -/
structure Machine where
  ht : rcu_ht
  heap : List rcu_ht_node
  log : List Event

/-- Where a `struct rcu_ht_node **` points: at a bucket head or at the `next`
field of a node. -/
inductive Link where
  | bucket (i : Nat)
  | next_of (p : Nat)
deriving DecidableEq, Repr

/-- Load of the node at address `p`. -/
def deref (heap : List rcu_ht_node) (p : Nat) : Option rcu_ht_node :=
  if p = 0 then none else heap[p - 1]?

/-- Store of a whole node at address `p`. -/
def store (heap : List rcu_ht_node) (p : Nat) (n : rcu_ht_node) : List rcu_ht_node :=
  if p = 0 then heap else heap.set (p - 1) n

/-- Record an event. -/
def Machine.emit (m : Machine) (e : Event) : Machine :=
  { m with log := m.log ++ [e] }

/-- Replace bucket head `i`. -/
def Machine.set_head (m : Machine) (i p : Nat) : Machine :=
  { m with ht := { m.ht with tbl := m.ht.tbl.set i p } }

/-- Load through a link, `*prev`. -/
def read_link (m : Machine) : Link → Option Nat
  | Link.bucket i => m.ht.tbl[i]?
  | Link.next_of p => (deref m.heap p).map rcu_ht_node.next

/-- Store through a link, `*prev = v`. -/
def write_link (m : Machine) : Link → Nat → Option Machine
  | Link.bucket i, v => if i < m.ht.tbl.length then some (m.set_head i v) else none
  | Link.next_of p, v =>
    match deref m.heap p with
    | none => none
    | some n => some { m with heap := store m.heap p { n with next := v } }

/-- The bucket of `key` for a table of `size` buckets; `none` when `size = 0`. -/
def bucket_of (ht : rcu_ht) (size key : Nat) : Option Nat :=
  if size = 0 then none else some (ht.hash_fct key ht.keylen ht.hashseed % size)

/-! ## Operations -/

/-- The function `ht_new`: both allocations succeed, the bucket array is zeroed. -/
def ht_new (hash_fct : Nat → Nat → Nat → Nat) (free_fct init_size keylen hashseed : Nat) :
    Machine :=
  { ht := { tbl := List.replicate init_size 0
            hash_fct := hash_fct
            free_fct := free_fct
            keylen := keylen
            hashseed := hashseed
            size_add := init_size
            size_lookup := init_size }
    heap := []
    log := [Event.calloc Obj.table, Event.calloc Obj.buckets] }

/-- The `for (;;)` of `ht_lookup`, started at `node`. -/
def lookup_walk (heap : List rcu_ht_node) (key : Nat) : Nat → Nat → Option Nat
  | 0, _ => none
  | fuel + 1, node =>
    if node = 0 then some 0
    else
      match deref heap node with
      | none => none
      | some n => if n.key = key then some n.data else lookup_walk heap key fuel n.next

/-- The function `ht_lookup`: the payload stored with `key`, or `0` (`NULL`). -/
def ht_lookup (m : Machine) (key : Nat) : Option Nat :=
  match bucket_of m.ht m.ht.size_lookup key with
  | none => none
  | some hash =>
    match m.ht.tbl[hash]? with
    | none => none
    | some node => lookup_walk m.heap key (m.heap.length + 1) node

/-- The `for (;;)` of `ht_add`: `true` when it leaves through `goto end` with
`-EEXIST`, `false` when it reaches the end of the chain. -/
def add_walk (heap : List rcu_ht_node) (key : Nat) : Nat → Nat → Option Bool
  | 0, _ => none
  | fuel + 1, node =>
    if node = 0 then some false
    else
      match deref heap node with
      | none => none
      | some n => if n.key = key then some true else add_walk heap key fuel n.next

/-- The body of `ht_add` from the label `retry` on; `new_head` is the node
allocated before it. -/
def ht_add_retry (key new_head : Nat) : Nat → Machine → Option (Int × Machine)
  | 0, _ => none
  | fuel + 1, m =>
    match bucket_of m.ht m.ht.size_add key with
    | none => none
    | some hash =>
      match m.ht.tbl[hash]? with
      | none => none
      | some old_head =>
        match add_walk m.heap key (m.heap.length + 1) old_head with
        | none => none
        | some true => some (-EEXIST, m)
        | some false =>
          match write_link m (Link.next_of new_head) old_head with
          | none => none
          | some m1 =>
            match m1.ht.tbl[hash]? with
            | none => none
            | some cur =>
              if cur = old_head then some (0, m1.set_head hash new_head)
              else ht_add_retry key new_head fuel m1

/-- The function `ht_add`: `calloc` hands out the next unused address, zero-filled; the three
stores that follow fill in `key`, `data` and `flags`. -/
def ht_add (m : Machine) (key data : Nat) : Option (Int × Machine) :=
  let new_head := m.heap.length + 1
  let m1 : Machine :=
    { m with heap := m.heap ++ [{ next := 0, key := key, data := data, flags := 0 }] }
  let m2 := m1.emit (Event.calloc (Obj.node new_head))
  ht_add_retry key new_head (m2.heap.length + 1) m2

/-- The `for (;;)` of `ht_steal`: `some none` when the walk falls off the end
of the chain, `some (some (prev, node))` when it breaks at a node with `key`. -/
def steal_walk (heap : List rcu_ht_node) (key : Nat) :
    Nat → Link → Nat → Option (Option (Link × Nat))
  | 0, _, _ => none
  | fuel + 1, prev, node =>
    if node = 0 then some none
    else
      match deref heap node with
      | none => none
      | some n =>
        if n.key = key then some (some (prev, node))
        else steal_walk heap key fuel (Link.next_of node) n.next

/-- The body of `ht_steal` from the label `retry` on; `del_node` is `0` until a
node has been unlinked. -/
def ht_steal_retry (key : Nat) : Nat → Nat → Machine → Option (Nat × Machine)
  | 0, _, _ => none
  | fuel + 1, del_node, m =>
    match bucket_of m.ht m.ht.size_lookup key with
    | none => none
    | some hash =>
      match read_link m (Link.bucket hash) with
      | none => none
      | some head =>
        match steal_walk m.heap key (m.heap.length + 1) (Link.bucket hash) head with
        | none => none
        | some none =>
          if del_node ≠ 0 then
            match deref m.heap del_node with
            | none => none
            | some d => some (d.data, m.emit (Event.call_rcu_free (Obj.node del_node)))
          else some (ENOENT_PTR, m)
        | some (some (prev, node)) =>
          match deref m.heap node with
          | none => none
          | some n =>
            if del_node = 0 ∧ n.flags ≠ 0 then some (ENOENT_PTR, m)
            else
              let n1 : rcu_ht_node := if del_node = 0 then { n with flags := NODE_STOLEN } else n
              let m1 : Machine := { m with heap := store m.heap node n1 }
              match read_link m1 prev with
              | none => none
              | some cur =>
                if cur = node then
                  match write_link m1 prev n1.next with
                  | none => none
                  | some m2 => ht_steal_retry key fuel node m2
                else ht_steal_retry key fuel del_node m1

/-- The function `ht_steal`: the payload of the unlinked node, or `ENOENT_PTR`. -/
def ht_steal (m : Machine) (key : Nat) : Option (Nat × Machine) :=
  ht_steal_retry key (m.heap.length + 1) 0 m

/-- The function `ht_delete`: `ht_steal`, then the deferred release of the payload when
it is neither null nor the miss value and a `free_fct` is set. -/
def ht_delete (m : Machine) (key : Nat) : Option (Int × Machine) :=
  match ht_steal m key with
  | none => none
  | some (data, m1) =>
    if data ≠ 0 ∧ data ≠ ENOENT_PTR then
      if m1.ht.free_fct ≠ 0 then some (0, m1.emit (Event.call_rcu m1.ht.free_fct data))
      else some (0, m1)
    else some (-ENOENT, m1)

/-- The inner `for (;;)` of `ht_delete_all`, entered with the first node of a
chain whose head has been cut; `cnt` is the running `int` counter. -/
def delete_all_chain : Nat → Nat → Nat → Machine → Option (Nat × Machine)
  | 0, _, _, _ => none
  | fuel + 1, node, cnt, m =>
    match deref m.heap node with
    | none => none
    | some n =>
      let inext := n.next
      let m1 : Machine := { m with heap := store m.heap node { n with next := 0 } }
      let m2 := if n.data ≠ 0 then m1.emit (Event.call_rcu m1.ht.free_fct n.data) else m1
      let m3 := m2.emit (Event.call_rcu_free (Obj.node node))
      if cnt + 1 > INT_MAX then none
      else if inext = 0 then some (cnt + 1, m3)
      else delete_all_chain fuel inext (cnt + 1) m3

/-- The outer `for (i = ...; i < ht->size.lookup; i++)` of `ht_delete_all`;
`todo` counts the iterations still allowed. -/
def delete_all_from : Nat → Nat → Nat → Machine → Option (Nat × Machine)
  | 0, _, _, _ => none
  | todo + 1, i, cnt, m =>
    if i < m.ht.size_lookup then
      match m.ht.tbl[i]? with
      | none => none
      | some node =>
        let m1 := m.set_head i 0
        if node = 0 then delete_all_from todo (i + 1) cnt m1
        else
          match delete_all_chain (m1.heap.length + 1) node cnt m1 with
          | none => none
          | some (cnt1, m2) => delete_all_from todo (i + 1) cnt1 m2
    else some (cnt, m)

/-- The function `ht_delete_all`: the number of nodes handed to `call_rcu`. -/
def ht_delete_all (m : Machine) : Option (Int × Machine) :=
  (delete_all_from (m.ht.size_lookup + 1) 0 0 m).map fun r => ((r.1 : Int), r.2)

/-- The function `ht_destroy`: `ht_delete_all`, then the bucket array and the table are
freed. -/
def ht_destroy (m : Machine) : Option (Int × Machine) :=
  match ht_delete_all m with
  | none => none
  | some (ret, m1) => some (ret, (m1.emit (Event.free Obj.buckets)).emit (Event.free Obj.table))

/-! ## Runs and chain contents -/

/-- A call of the public interface. -/
inductive Op where
  | add (key data : Nat)
  | steal (key : Nat)
  | delete (key : Nat)
  | delete_all
deriving DecidableEq, Repr

/-- What a call hands back: an `int` or a pointer. -/
inductive Ret where
  | int (r : Int)
  | ptr (p : Nat)
deriving DecidableEq, Repr

/-- Run one call. -/
def exec (m : Machine) : Op → Option (Ret × Machine)
  | Op.add key data => (ht_add m key data).map fun r => (Ret.int r.1, r.2)
  | Op.steal key => (ht_steal m key).map fun r => (Ret.ptr r.1, r.2)
  | Op.delete key => (ht_delete m key).map fun r => (Ret.int r.1, r.2)
  | Op.delete_all => (ht_delete_all m).map fun r => (Ret.int r.1, r.2)

/-- Run a sequence of calls, collecting each call with its result. -/
def run (m : Machine) : List Op → Option (List (Op × Ret) × Machine)
  | [] => some ([], m)
  | op :: ops =>
    match exec m op with
    | none => none
    | some (r, m1) =>
      match run m1 ops with
      | none => none
      | some (tr, m2) => some ((op, r) :: tr, m2)

/-- The states a single thread can bring a table to, starting from `ht_new`
with a non-zero size. -/
inductive Reachable : Machine → Prop
  | new (hash_fct : Nat → Nat → Nat → Nat) (free_fct init_size keylen hashseed : Nat) :
      0 < init_size → Reachable (ht_new hash_fct free_fct init_size keylen hashseed)
  | step (m : Machine) (op : Op) (r : Ret) (m1 : Machine) :
      Reachable m → exec m op = some (r, m1) → Reachable m1

/-- What a reader sees of a linked node: its address, key and payload. -/
structure Entry where
  addr : Nat
  key : Nat
  data : Nat
deriving DecidableEq, Repr

/-- Follow `next` from `p` down to `NULL`, listing the nodes on the way. -/
def chain_from (heap : List rcu_ht_node) : Nat → Nat → Option (List Entry)
  | 0, _ => none
  | fuel + 1, p =>
    if p = 0 then some []
    else
      match deref heap p with
      | none => none
      | some n =>
        match chain_from heap fuel n.next with
        | none => none
        | some l => some ({ addr := p, key := n.key, data := n.data } :: l)

/-- The chain hanging off bucket `i`; `none` when there is no such bucket or the
chain does not end within `heap.length + 1` hops. -/
def bucket_chain (m : Machine) (i : Nat) : Option (List Entry) :=
  match m.ht.tbl[i]? with
  | none => none
  | some p => chain_from m.heap (m.heap.length + 1) p

/-- The index `hash_fct(key, keylen, hashseed) % size` for the bucket array as
it stands. -/
def home (m : Machine) (key : Nat) : Nat :=
  m.ht.hash_fct key m.ht.keylen m.ht.hashseed % m.ht.tbl.length

/-- The list `l` holds the nodes met from `p` to `NULL`, none of them flagged. -/
def Chain (heap : List rcu_ht_node) : Nat → List Entry → Prop
  | p, [] => p = 0
  | p, e :: l =>
    p = e.addr ∧ ∃ n, deref heap p = some n ∧ n.key = e.key ∧ n.data = e.data ∧
      n.flags = 0 ∧ Chain heap n.next l

/-- The table of `m` is sound and its bucket `i` holds exactly the chain `B i`:
the three sizes agree and are non-zero, every chain ends in `NULL`, holds no
key twice and only keys that hash to its bucket. -/
structure Rep (m : Machine) (B : Nat → List Entry) : Prop where
  size_pos : 0 < m.ht.tbl.length
  size_add : m.ht.size_add = m.ht.tbl.length
  size_lookup : m.ht.size_lookup = m.ht.tbl.length
  chain : ∀ i, i < m.ht.tbl.length → Chain m.heap (m.ht.tbl.getD i 0) (B i)
  short : ∀ i, i < m.ht.tbl.length → (B i).length ≤ m.heap.length
  nodup : ∀ i, i < m.ht.tbl.length → ((B i).map Entry.key).Nodup
  placed : ∀ i, i < m.ht.tbl.length → ∀ e ∈ B i, home m e.key = i

/-- The call that led from `m` to `m1` changed nothing of the table but bucket
heads. -/
def SameTable (m m1 : Machine) : Prop :=
  m1.ht = { m.ht with tbl := m1.ht.tbl } ∧ m1.ht.tbl.length = m.ht.tbl.length

/-- The payload found with `key` in a chain, `miss` when there is none. -/
def chain_find (l : List Entry) (key miss : Nat) : Nat :=
  ((l.find? fun e => decide (e.key = key)).map Entry.data).getD miss

/-- The number of nodes in the `n` buckets from `i` on. -/
def linked (B : Nat → List Entry) : Nat → Nat → Nat
  | _, 0 => 0
  | i, n + 1 => (B i).length + linked B (i + 1) n

/-- What `ht_delete_all` logs while it takes the chain `l` apart. -/
def chain_events (fct : Nat) : List Entry → List Event
  | [] => []
  | e :: l =>
    (if e.data ≠ 0 then [Event.call_rcu fct e.data] else []) ++
      Event.call_rcu_free (Obj.node e.addr) :: chain_events fct l

/-- What `ht_delete_all` logs over the `n` buckets from `i` on. -/
def table_events (fct : Nat) (B : Nat → List Entry) : Nat → Nat → List Event
  | _, 0 => []
  | i, n + 1 => chain_events fct (B i) ++ table_events fct B (i + 1) n

/-- The chains of a table, bucket by bucket (empty where `bucket_chain` fails). -/
def chains (m : Machine) (i : Nat) : List Entry :=
  (bucket_chain m i).getD []

/-- The number of nodes linked in the table. -/
def linked_nodes (m : Machine) : Nat :=
  linked (chains m) 0 m.ht.tbl.length

/-- The state `ht_add` leaves when it links the new node. -/
def added (m : Machine) (key data : Nat) : Machine :=
  { ht := { m.ht with tbl := m.ht.tbl.set (home m key) (m.heap.length + 1) }
    heap := m.heap ++
      [{ next := m.ht.tbl.getD (home m key) 0, key := key, data := data, flags := 0 }]
    log := m.log ++ [Event.calloc (Obj.node (m.heap.length + 1))] }

/-- The link a walk holds in `prev` after passing the nodes `l`, having started
with `prev`. -/
def link_before (prev : Link) : List Entry → Link
  | [] => prev
  | x :: l => link_before (Link.next_of x.addr) l

/-- The call `x` is one that reports having taken `key` out: an `ht_delete(key)`
that returned `0` or an `ht_steal(key)` that returned something else than the
miss value. -/
def releases (key : Nat) (x : Op × Ret) : Prop :=
  (x.1 = Op.delete key ∧ x.2 = Ret.int 0) ∨
    (x.1 = Op.steal key ∧ ∃ p, x.2 = Ret.ptr p ∧ p ≠ ENOENT_PTR)

/-- A hash function for the worked examples (the hash is a parameter of the
table; `jhash` itself is not part of `urcu-ht.c`). -/
def word_hash : Nat → Nat → Nat → Nat :=
  fun key _ _ => key % 2 ^ 32

/-- The table of the first end-to-end scenario, `new(jhash, null, 16, 4, 0)`. -/
def fresh16 : Machine :=
  ht_new word_hash 0 16 4 0

/-! ## Grace-period engine (`urcu.c`)

The writer side of `urcu.c`, as one thread sees it while it holds
`rcu_gp_lock`.  Readers are named by the address of their `struct rcu_reader`;
the three lists `registry`, `cur_snap_readers` and `qsreaders` are lists of
such addresses in list order.  What the readers do meanwhile is not the
writer's to decide: the value each load of a reader's `ctr` returns is given
from outside, by `obs t r` for the load of reader `r` during scan number `t`.
Memory barriers (`smp_mb_master`, `cmm_smp_mb`, `cmm_barrier`), the mutex and
the blocking in `wait_gp` leave the modelled state alone.  The futex word is
kept as the writer's own stores leave it; a reader that wakes the writer may
reset it to `0` as well, and no list operation depends on its value. -/

/-- The constant `KICK_READER_LOOPS`. -/
def KICK_READER_LOOPS : Nat := 10000

/-- The constant `RCU_QS_ACTIVE_ATTEMPTS`. -/
def RCU_QS_ACTIVE_ATTEMPTS : Nat := 100

/-- Modelled from the spec: the constant `RCU_GP_COUNT` of `urcu/static/urcu.h`,
one unit of nesting depth in the low bits of a counter. -/
def RCU_GP_COUNT : Nat := 1

/-- Modelled from the spec: the reserved phase bit `RCU_GP_CTR_PHASE` of
`urcu/static/urcu.h`, the middle bit of a 64-bit `unsigned long`. -/
def RCU_GP_CTR_PHASE : Nat := 2 ^ 32

/-- Modelled from the spec: the mask `RCU_GP_CTR_NEST_MASK` of
`urcu/static/urcu.h` for the nesting depth, the bits below the phase bit. -/
def RCU_GP_CTR_NEST_MASK : Nat := RCU_GP_CTR_PHASE - 1

/-- The C `enum rcu_state`. -/
inductive rcu_state where
  | RCU_READER_ACTIVE_CURRENT
  | RCU_READER_ACTIVE_OLD
  | RCU_READER_INACTIVE
deriving DecidableEq, Repr

/-- Modelled from the spec: the inline function `rcu_reader_state` of
`urcu/static/urcu.h`, applied to the loaded counter `v` of a reader: inactive
when the depth is zero, else current or old as the phase bit of `v` agrees with
that of `rcu_gp.ctr` or not. -/
def rcu_reader_state (gp_ctr v : Nat) : rcu_state :=
  if v &&& RCU_GP_CTR_NEST_MASK = 0 then rcu_state.RCU_READER_INACTIVE
  else if (v ^^^ gp_ctr) &&& RCU_GP_CTR_PHASE = 0 then rcu_state.RCU_READER_ACTIVE_CURRENT
  else rcu_state.RCU_READER_ACTIVE_OLD

/-- Modelled from the spec: the list primitive `cds_list_move` of `urcu/list.h`,
which unlinks a node and inserts it right after the head of the target list. -/
def cds_list_move (index : Nat) (head : List Nat) : List Nat :=
  index :: head

/-- Modelled from the spec: the list primitive `cds_list_splice` of
`urcu/list.h`, which inserts the nodes of `add` right after the head of the
target list. -/
def cds_list_splice (add head : List Nat) : List Nat :=
  add ++ head

/-- The `switch` of `wait_for_readers` for the reader `index`, whose counter was
loaded as `v`: whether the node stays in the input list, then
`cur_snap_readers` (`none` for a `NULL` argument) and `qsreaders`.  An active
reader of the current phase falls through to the inactive case when there is
no `cur_snap_readers`. -/
def scan_reader (gp_ctr v index : Nat) (cur_snap : Option (List Nat)) (qs : List Nat) :
    Bool × Option (List Nat) × List Nat :=
  match rcu_reader_state gp_ctr v with
  | rcu_state.RCU_READER_ACTIVE_CURRENT =>
    match cur_snap with
    | some c => (false, some (cds_list_move index c), qs)
    | none => (false, none, cds_list_move index qs)
  | rcu_state.RCU_READER_INACTIVE => (false, cur_snap, cds_list_move index qs)
  | rcu_state.RCU_READER_ACTIVE_OLD => (true, cur_snap, qs)

/-- The `cds_list_for_each_entry_safe` loop of `wait_for_readers` from the node
`index` on: the readers left in the input list, then `cur_snap_readers` and
`qsreaders`. -/
def scan_readers (gp_ctr : Nat) (load : Nat → Nat) :
    List Nat → Option (List Nat) → List Nat → List Nat × Option (List Nat) × List Nat
  | [], cur_snap, qs => ([], cur_snap, qs)
  | index :: rest, cur_snap, qs =>
    let b := scan_reader gp_ctr (load index) index cur_snap qs
    let r := scan_readers gp_ctr load rest b.2.1 b.2.2
    (if b.1 = true then index :: r.1 else r.1, r.2.1, r.2.2)

/-- The variables of a call of `wait_for_readers`: its counter `wait_loops`, the
word `rcu_gp.futex`, the three lists, and the number of scans done so far. -/
structure WaitState where
  time : Nat
  wait_loops : Nat
  futex : Int
  input : List Nat
  cur_snap : Option (List Nat)
  qs : List Nat

/-- One turn of the `for (;;)` of `wait_for_readers`; the flag tells whether the
turn ends in `break`.  With `incoherent` set this is the body compiled under
`HAS_INCOHERENT_CACHES`.  The counter is an `int`: a `wait_loops++` past
`INT_MAX` gives no result. -/
def wait_pass (incoherent : Bool) (gp_ctr : Nat) (load : Nat → Nat) (s : WaitState) :
    Option (Bool × WaitState) :=
  if s.wait_loops + 1 > INT_MAX then none
  else
    let wait_loops := s.wait_loops + 1
    let futex := if wait_loops = RCU_QS_ACTIVE_ATTEMPTS then s.futex - 1 else s.futex
    let r := scan_readers gp_ctr load s.input s.cur_snap s.qs
    if r.1 = [] then
      some (true,
        { time := s.time + 1
          wait_loops := wait_loops
          futex := if wait_loops = RCU_QS_ACTIVE_ATTEMPTS then 0 else futex
          input := r.1
          cur_snap := r.2.1
          qs := r.2.2 })
    else
      some (false,
        { time := s.time + 1
          wait_loops :=
            if incoherent = true ∧ wait_loops = KICK_READER_LOOPS then 0 else wait_loops
          futex := futex
          input := r.1
          cur_snap := r.2.1
          qs := r.2.2 })

/-- The function `wait_for_readers`: turns of the loop until one ends in `break`,
at most `fuel` of them. -/
def wait_for_readers (incoherent : Bool) (gp_ctr : Nat) (obs : Nat → Nat → Nat) :
    Nat → WaitState → Option WaitState
  | 0, _ => none
  | fuel + 1, s =>
    match wait_pass incoherent gp_ctr (obs s.time) s with
    | none => none
    | some (true, s1) => some s1
    | some (false, s1) => wait_for_readers incoherent gp_ctr obs fuel s1

/-- The C `struct rcu_gp`: the global counter with its phase bit, and the futex
word. -/
structure rcu_gp where
  ctr : Nat
  futex : Int
deriving DecidableEq, Repr

/-- What the writer works on: `rcu_gp`, the `registry` list, and the number of
scans done so far. -/
structure Engine where
  gp : rcu_gp
  registry : List Nat
  time : Nat
deriving DecidableEq, Repr

/-- The function `synchronize_rcu`.  The flag `first` is the outcome of
`urcu_wait_add`: a caller that is not first in the queue waits to be woken and
returns; the first one performs the grace period, each of its two waits being
given `fuel` turns. -/
def synchronize_rcu (incoherent first : Bool) (obs : Nat → Nat → Nat) (fuel : Nat)
    (e : Engine) : Option Engine :=
  if first = false then some e
  else if e.registry = [] then some e
  else
    match wait_for_readers incoherent e.gp.ctr obs fuel
        { time := e.time, wait_loops := 0, futex := e.gp.futex, input := e.registry,
          cur_snap := some [], qs := [] } with
    | none => none
    | some s1 =>
      let ctr := e.gp.ctr ^^^ RCU_GP_CTR_PHASE
      match wait_for_readers incoherent ctr obs fuel
          { time := s1.time, wait_loops := 0, futex := s1.futex,
            input := s1.cur_snap.getD [], cur_snap := none, qs := s1.qs } with
      | none => none
      | some s2 =>
        some { gp := { ctr := ctr, futex := s2.futex }
               registry := cds_list_splice s2.qs s1.input
               time := s2.time }

/-- The readers of a list that a scan classifies as `st`. -/
def readers_in (gp_ctr : Nat) (load : Nat → Nat) (st : rcu_state) (l : List Nat) : List Nat :=
  l.filter fun r => decide (rcu_reader_state gp_ctr (load r) = st)

/-- The readers of a list that a scan does not classify as active under the old
phase. -/
def quiescent_in (gp_ctr : Nat) (load : Nat → Nat) (l : List Nat) : List Nat :=
  l.filter fun r => decide (rcu_reader_state gp_ctr (load r) ≠ rcu_state.RCU_READER_ACTIVE_OLD)

/-- The start of a worked example: three registered readers, phase bit clear. -/
def engine3 : Engine :=
  { gp := { ctr := RCU_GP_COUNT, futex := 0 }, registry := [10, 20, 30], time := 0 }

/-- An engine without registered readers. -/
def engine0 : Engine :=
  { gp := { ctr := RCU_GP_COUNT, futex := 0 }, registry := [], time := 0 }

/-- The variables of the first `wait_for_readers` call of the worked example as
it starts. -/
def wait3 : WaitState :=
  { time := 0, wait_loops := 0, futex := 0, input := [10, 20, 30], cur_snap := some [],
    qs := [] }

/-- The observations of the worked example: reader `10` stays outside read
sections; reader `20` is seen inside a section entered under the starting
phase during scans `0` to `4` and outside from scan `5` on; reader `30` is seen
inside a section entered under the other phase during scans `0` and `1` and
outside from scan `2` on. -/
def obs3 (t r : Nat) : Nat :=
  if r = 20 then (if t < 5 then RCU_GP_COUNT else 0)
  else if r = 30 then (if t < 2 then RCU_GP_CTR_PHASE + RCU_GP_COUNT else 0)
  else 0

/-! ## Memory lemmas -/

theorem deref_bounds {heap : List rcu_ht_node} {p : Nat} {n : rcu_ht_node}
    (h : deref heap p = some n) : 0 < p ∧ p ≤ heap.length := by
  unfold deref at h
  split at h
  · simp at h
  · have := (List.getElem?_eq_some_iff.mp h).1
    omega

theorem deref_append {heap : List rcu_ht_node} {p : Nat} {n : rcu_ht_node}
    (x : List rcu_ht_node) (h : deref heap p = some n) : deref (heap ++ x) p = some n := by
  have hb := deref_bounds h
  unfold deref at h ⊢
  split
  · omega
  · rw [List.getElem?_append_left (by omega)]
    simpa [show ¬ p = 0 by omega] using h

theorem deref_store_ne {heap : List rcu_ht_node} {p q : Nat} (n : rcu_ht_node)
    (h : p ≠ q) : deref (store heap q n) p = deref heap p := by
  unfold deref store
  by_cases hp : p = 0
  · simp [hp]
  · by_cases hq : q = 0
    · simp [hq]
    · simp only [hp, hq, if_false]
      rw [List.getElem?_set_ne (by omega)]

theorem deref_store_eq {heap : List rcu_ht_node} {q : Nat} {n0 : rcu_ht_node}
    (n : rcu_ht_node) (h : deref heap q = some n0) : deref (store heap q n) q = some n := by
  have hb := deref_bounds h
  unfold deref store
  have hq : ¬ q = 0 := by omega
  simp only [hq, if_false]
  rw [List.getElem?_set_self (by omega)]

theorem store_length (heap : List rcu_ht_node) (q : Nat) (n : rcu_ht_node) :
    (store heap q n).length = heap.length := by
  unfold store
  split <;> simp

theorem deref_new (heap : List rcu_ht_node) (n : rcu_ht_node) :
    deref (heap ++ [n]) (heap.length + 1) = some n := by
  unfold deref
  simp

/-! ## Chains -/

theorem Chain.entry {heap : List rcu_ht_node} :
    ∀ {l : List Entry} {p : Nat}, Chain heap p l → ∀ {e : Entry}, e ∈ l →
      ∃ n, deref heap e.addr = some n ∧ n.key = e.key ∧ n.data = e.data ∧ n.flags = 0
  | [], _, _, _, he => by simp at he
  | x :: l, p, h, e, he => by
    obtain ⟨hp, n, hn, hk, hd, hf, hrest⟩ := h
    rcases List.mem_cons.mp he with rfl | hmem
    · exact ⟨n, hp ▸ hn, hk, hd, hf⟩
    · exact Chain.entry hrest hmem

theorem Chain.frame {heap heap1 : List rcu_ht_node} :
    ∀ {l : List Entry} {p : Nat}, Chain heap p l →
      (∀ e ∈ l, deref heap1 e.addr = deref heap e.addr) → Chain heap1 p l
  | [], _, h, _ => h
  | x :: l, p, h, hsame => by
    obtain ⟨hp, n, hn, hk, hd, hf, hrest⟩ := h
    refine ⟨hp, n, ?_, hk, hd, hf, ?_⟩
    · rw [hp, hsame x (List.mem_cons_self _ _), ← hp, hn]
    · exact Chain.frame hrest fun e he => hsame e (List.mem_cons_of_mem _ he)

theorem Chain.unique {heap : List rcu_ht_node} :
    ∀ {l1 l2 : List Entry} {p : Nat}, Chain heap p l1 → Chain heap p l2 → l1 = l2
  | [], [], _, _, _ => rfl
  | [], y :: l2, p, h1, h2 => by
    obtain ⟨_, n, hn, _⟩ := h2
    have h0 : p = 0 := h1
    have := deref_bounds hn
    omega
  | x :: l1, [], p, h1, h2 => by
    obtain ⟨_, n, hn, _⟩ := h1
    have h0 : p = 0 := h2
    have := deref_bounds hn
    omega
  | x :: l1, y :: l2, p, h1, h2 => by
    obtain ⟨hp1, n1, hn1, hk1, hd1, _, hr1⟩ := h1
    obtain ⟨hp2, n2, hn2, hk2, hd2, _, hr2⟩ := h2
    have hnn : n1 = n2 := Option.some.inj (hn1.symm.trans hn2)
    subst hnn
    have hxy : x = y := by
      cases x; cases y
      simp only [Entry.mk.injEq]
      exact ⟨hp1.symm.trans hp2, hk1.symm.trans hk2, hd1.symm.trans hd2⟩
    rw [hxy, Chain.unique hr1 hr2]

theorem Chain.addr_ne {heap : List rcu_ht_node} {l : List Entry} {p : Nat}
    (h : Chain heap p l) {e1 e2 : Entry} (h1 : e1 ∈ l) (h2 : e2 ∈ l)
    (hk : e1.key ≠ e2.key) : e1.addr ≠ e2.addr := by
  intro ha
  obtain ⟨n1, hn1, hk1, _⟩ := h.entry h1
  obtain ⟨n2, hn2, hk2, _⟩ := h.entry h2
  rw [ha, hn2] at hn1
  have : n2 = n1 := Option.some.inj hn1
  subst this
  exact hk (hk1.symm.trans hk2)

theorem chain_from_of_Chain {heap : List rcu_ht_node} :
    ∀ {l : List Entry} {p : Nat} (fuel : Nat), Chain heap p l → l.length < fuel →
      chain_from heap fuel p = some l
  | [], p, fuel, h, hf => by
    have h0 : p = 0 := h
    obtain ⟨f, rfl⟩ : ∃ f, fuel = f + 1 := ⟨fuel - 1, by simp at hf; omega⟩
    simp [chain_from, h0]
  | x :: l, p, fuel, h, hf => by
    obtain ⟨hp, n, hn, hk, hd, _, hrest⟩ := h
    obtain ⟨f, rfl⟩ : ∃ f, fuel = f + 1 := ⟨fuel - 1, by simp at hf; omega⟩
    have hp0 : p ≠ 0 := by have := deref_bounds hn; omega
    have ih := chain_from_of_Chain f hrest (by simp at hf; omega)
    cases x
    simp only at hp hk hd
    subst hp
    simp [chain_from, hp0, hn, ih, hk, hd]

theorem lookup_walk_chain {heap : List rcu_ht_node} (key : Nat) :
    ∀ {l : List Entry} {p : Nat} (fuel : Nat), Chain heap p l → l.length < fuel →
      lookup_walk heap key fuel p =
        some (chain_find l key 0)
  | [], p, fuel, h, hf => by
    have h0 : p = 0 := h
    obtain ⟨f, rfl⟩ : ∃ f, fuel = f + 1 := ⟨fuel - 1, by simp at hf; omega⟩
    simp [lookup_walk, h0, chain_find]
  | x :: l, p, fuel, h, hf => by
    obtain ⟨hp, n, hn, hk, hd, _, hrest⟩ := h
    obtain ⟨f, rfl⟩ : ∃ f, fuel = f + 1 := ⟨fuel - 1, by simp at hf; omega⟩
    have hp0 : p ≠ 0 := by have := deref_bounds hn; omega
    have ih := lookup_walk_chain key f hrest (by simp at hf; omega)
    by_cases hkey : x.key = key
    · simp [lookup_walk, hp0, hn, hk, hkey, List.find?_cons, hd, chain_find]
    · simp [lookup_walk, hp0, hn, hk, hkey, List.find?_cons, ih, chain_find]

theorem add_walk_chain {heap : List rcu_ht_node} (key : Nat) :
    ∀ {l : List Entry} {p : Nat} (fuel : Nat), Chain heap p l → l.length < fuel →
      add_walk heap key fuel p = some (decide (key ∈ l.map Entry.key))
  | [], p, fuel, h, hf => by
    have h0 : p = 0 := h
    obtain ⟨f, rfl⟩ : ∃ f, fuel = f + 1 := ⟨fuel - 1, by simp at hf; omega⟩
    simp [add_walk, h0]
  | x :: l, p, fuel, h, hf => by
    obtain ⟨hp, n, hn, hk, hd, _, hrest⟩ := h
    obtain ⟨f, rfl⟩ : ∃ f, fuel = f + 1 := ⟨fuel - 1, by simp at hf; omega⟩
    have hp0 : p ≠ 0 := by have := deref_bounds hn; omega
    have ih := add_walk_chain key f hrest (by simp at hf; omega)
    by_cases hkey : x.key = key
    · simp [add_walk, hp0, hn, hk, hkey]
    · have hkey2 : ¬ key = x.key := fun h => hkey h.symm
      simp [add_walk, hp0, hn, hk, hkey, hkey2, ih]

/-! ## Buckets and lookup -/

theorem head_eq {tbl : List Nat} {i : Nat} (hi : i < tbl.length) :
    tbl[i]? = some (tbl.getD i 0) := by
  simp [List.getD_eq_getElem?_getD, List.getElem?_eq_getElem hi]

theorem Rep.home_lt {m : Machine} {B : Nat → List Entry} (h : Rep m B) (key : Nat) :
    home m key < m.ht.tbl.length :=
  Nat.mod_lt _ h.size_pos

theorem Rep.bucket_lookup {m : Machine} {B : Nat → List Entry} (h : Rep m B) (key : Nat) :
    bucket_of m.ht m.ht.size_lookup key = some (home m key) := by
  have hp : m.ht.tbl.length ≠ 0 := Nat.pos_iff_ne_zero.mp h.size_pos
  simp [bucket_of, h.size_lookup, home, hp]

theorem Rep.bucket_add {m : Machine} {B : Nat → List Entry} (h : Rep m B) (key : Nat) :
    bucket_of m.ht m.ht.size_add key = some (home m key) := by
  have hp : m.ht.tbl.length ≠ 0 := Nat.pos_iff_ne_zero.mp h.size_pos
  simp [bucket_of, h.size_add, home, hp]

theorem Rep.bucket_chain_eq {m : Machine} {B : Nat → List Entry} (h : Rep m B) {i : Nat}
    (hi : i < m.ht.tbl.length) : bucket_chain m i = some (B i) := by
  simp only [bucket_chain, head_eq hi]
  exact chain_from_of_Chain _ (h.chain i hi) (Nat.lt_succ_of_le (h.short i hi))

theorem Rep.lookup {m : Machine} {B : Nat → List Entry} (h : Rep m B) (key : Nat) :
    ht_lookup m key = some (chain_find (B (home m key)) key 0) := by
  have hi := h.home_lt key
  simp only [ht_lookup, h.bucket_lookup, head_eq hi]
  exact lookup_walk_chain key _ (h.chain _ hi) (Nat.lt_succ_of_le (h.short _ hi))

theorem chain_find_of_not_mem {l : List Entry} {key : Nat} (miss : Nat)
    (h : key ∉ l.map Entry.key) : chain_find l key miss = miss := by
  have : (l.find? fun e => decide (e.key = key)) = none := by
    rw [List.find?_eq_none]
    intro e he hk
    exact h (List.mem_map.mpr ⟨e, he, by simpa using hk⟩)
  simp [chain_find, this]

theorem chain_find_of_mem {l : List Entry} {e : Entry} (miss : Nat)
    (hnd : (l.map Entry.key).Nodup) (he : e ∈ l) : chain_find l e.key miss = e.data := by
  induction l with
  | nil => simp at he
  | cons x l ih =>
    rw [List.map_cons, List.nodup_cons] at hnd
    rcases List.mem_cons.mp he with rfl | hmem
    · simp [chain_find, List.find?_cons]
    · have hne : x.key ≠ e.key := fun hk =>
        hnd.1 (List.mem_map.mpr ⟨e, hmem, hk.symm⟩)
      have := ih hnd.2 hmem
      simpa [chain_find, List.find?_cons, hne] using this

theorem SameTable.home_eq {m m1 : Machine} (h : SameTable m m1) (key : Nat) :
    home m1 key = home m key := by
  unfold home
  rw [h.2, h.1]

theorem SameTable.refl (m : Machine) : SameTable m m :=
  ⟨rfl, rfl⟩

theorem SameTable.trans {m m1 m2 : Machine} (h1 : SameTable m m1) (h2 : SameTable m1 m2) :
    SameTable m m2 := by
  refine ⟨?_, h2.2.trans h1.2⟩
  rw [h2.1, h1.1]

/-! ## `ht_add` -/

/-- The state `ht_add` works on once the new node is allocated and filled in. -/
theorem Rep.alloc {m : Machine} {B : Nat → List Entry} (h : Rep m B) (n : rcu_ht_node)
    (e : Event) : Rep (Machine.emit { m with heap := m.heap ++ [n] } e) B where
  size_pos := h.size_pos
  size_add := h.size_add
  size_lookup := h.size_lookup
  chain := fun i hi => (h.chain i hi).frame fun x hx => by
    obtain ⟨nx, hnx, _⟩ := (h.chain i hi).entry hx
    show deref (m.heap ++ [n]) x.addr = deref m.heap x.addr
    rw [hnx, deref_append _ hnx]
  short := fun i hi => by
    have := h.short i hi
    show (B i).length ≤ (m.heap ++ [n]).length
    simp
    omega
  nodup := h.nodup
  placed := h.placed

theorem ht_add_exists {m : Machine} {B : Nat → List Entry} (h : Rep m B) (key data : Nat)
    (hk : key ∈ (B (home m key)).map Entry.key) :
    ht_add m key data = some (-EEXIST, Machine.emit
      { m with heap := m.heap ++ [{ next := 0, key := key, data := data, flags := 0 }] }
      (Event.calloc (Obj.node (m.heap.length + 1)))) := by
  have h2 := h.alloc { next := 0, key := key, data := data, flags := 0 }
    (Event.calloc (Obj.node (m.heap.length + 1)))
  have hi := h2.home_lt key
  have hw := add_walk_chain key _ (h2.chain _ hi) (Nat.lt_succ_of_le (h2.short _ hi))
  have hk2 : key ∈ (B (home (Machine.emit
      { m with heap := m.heap ++ [{ next := 0, key := key, data := data, flags := 0 }] }
      (Event.calloc (Obj.node (m.heap.length + 1)))) key)).map Entry.key := hk
  simp only [hk2, decide_True] at hw
  simp only [ht_add, ht_add_retry, h2.bucket_add, head_eq hi, hw]

theorem ht_add_fresh {m : Machine} {B : Nat → List Entry} (h : Rep m B) (key data : Nat)
    (hk : key ∉ (B (home m key)).map Entry.key) :
    ht_add m key data = some (0, added m key data) := by
  have h2 := h.alloc { next := 0, key := key, data := data, flags := 0 }
    (Event.calloc (Obj.node (m.heap.length + 1)))
  have hi := h2.home_lt key
  have hw := add_walk_chain key _ (h2.chain _ hi) (Nat.lt_succ_of_le (h2.short _ hi))
  have hk2 : key ∉ (B (home (Machine.emit
      { m with heap := m.heap ++ [{ next := 0, key := key, data := data, flags := 0 }] }
      (Event.calloc (Obj.node (m.heap.length + 1)))) key)).map Entry.key := hk
  simp only [hk2, decide_False] at hw
  simp only [ht_add, ht_add_retry, h2.bucket_add, head_eq hi, hw, write_link]
  have hd : deref (Machine.emit
      { m with heap := m.heap ++ [{ next := 0, key := key, data := data, flags := 0 }] }
      (Event.calloc (Obj.node (m.heap.length + 1)))).heap (m.heap.length + 1) =
      some { next := 0, key := key, data := data, flags := 0 } := deref_new _ _
  simp only [hd, head_eq hi, if_true]
  simp [added, Machine.emit, Machine.set_head, store, home]

theorem Rep.after_add {m : Machine} {B : Nat → List Entry} (h : Rep m B) (key data : Nat)
    (hk : key ∉ (B (home m key)).map Entry.key) :
    Rep (added m key data) (Function.update B (home m key)
      ({ addr := m.heap.length + 1, key := key, data := data } :: B (home m key))) := by
  have hi := h.home_lt key
  have hhome : ∀ k, home (added m key data) k = home m k := fun k => by
    simp [home, added]
  have hfr : ∀ i, i < m.ht.tbl.length → ∀ x ∈ B i,
      deref (added m key data).heap x.addr = deref m.heap x.addr := fun i hi2 x hx => by
    obtain ⟨nx, hnx, _⟩ := (h.chain i hi2).entry hx
    show deref (m.heap ++ _) x.addr = deref m.heap x.addr
    rw [hnx, deref_append _ hnx]
  have hlen : (added m key data).ht.tbl.length = m.ht.tbl.length := by simp [added]
  refine ⟨by rw [hlen]; exact h.size_pos, by rw [hlen]; exact h.size_add,
    by rw [hlen]; exact h.size_lookup, ?_, ?_, ?_, ?_⟩
  · intro i hi2
    rw [hlen] at hi2
    by_cases hih : i = home m key
    · subst hih
      rw [Function.update_same]
      have hhd : (added m key data).ht.tbl.getD (home m key) 0 = m.heap.length + 1 := by
        simp [added, List.getD_eq_getElem?_getD, List.getElem?_set_self hi]
      rw [hhd]
      refine ⟨rfl, _, deref_new _ _, rfl, rfl, rfl, ?_⟩
      exact (h.chain _ hi).frame (hfr _ hi)
    · rw [Function.update_noteq hih]
      have hhd : (added m key data).ht.tbl.getD i 0 = m.ht.tbl.getD i 0 := by
        simp [added, List.getD_eq_getElem?_getD, List.getElem?_set_ne (Ne.symm hih)]
      rw [hhd]
      exact (h.chain _ hi2).frame (hfr _ hi2)
  · intro i hi2
    rw [hlen] at hi2
    have := h.short i hi2
    have hl : (added m key data).heap.length = m.heap.length + 1 := by simp [added]
    by_cases hih : i = home m key
    · subst hih
      rw [Function.update_same, hl]
      simp
      exact this
    · rw [Function.update_noteq hih, hl]
      omega
  · intro i hi2
    rw [hlen] at hi2
    by_cases hih : i = home m key
    · subst hih
      rw [Function.update_same, List.map_cons, List.nodup_cons]
      exact ⟨hk, h.nodup _ hi⟩
    · rw [Function.update_noteq hih]
      exact h.nodup i hi2
  · intro i hi2 e he
    rw [hlen] at hi2
    rw [hhome]
    by_cases hih : i = home m key
    · subst hih
      rw [Function.update_same] at he
      rcases List.mem_cons.mp he with rfl | hmem
      · rfl
      · exact h.placed _ hi e hmem
    · rw [Function.update_noteq hih] at he
      exact h.placed i hi2 e he

/-! ## `ht_steal` -/

theorem link_before_concat (prev : Link) (l : List Entry) (x : Entry) :
    link_before prev (l ++ [x]) = Link.next_of x.addr := by
  induction l generalizing prev with
  | nil => rfl
  | cons y l ih => exact ih _

theorem steal_walk_absent {heap : List rcu_ht_node} (key : Nat) :
    ∀ {l : List Entry} {p : Nat} (fuel : Nat) (prev : Link), Chain heap p l →
      key ∉ l.map Entry.key → l.length < fuel → steal_walk heap key fuel prev p = some none
  | [], p, fuel, prev, h, _, hf => by
    have h0 : p = 0 := h
    obtain ⟨f, rfl⟩ : ∃ f, fuel = f + 1 := ⟨fuel - 1, by simp at hf; omega⟩
    simp [steal_walk, h0]
  | x :: l, p, fuel, prev, h, hk, hf => by
    obtain ⟨hp, n, hn, hkey, _, _, hrest⟩ := h
    obtain ⟨f, rfl⟩ : ∃ f, fuel = f + 1 := ⟨fuel - 1, by simp at hf; omega⟩
    have hp0 : p ≠ 0 := by have := deref_bounds hn; omega
    rw [List.map_cons, List.mem_cons, not_or] at hk
    have hne : ¬ n.key = key := fun hh => hk.1 (hh.symm.trans hkey)
    have ih := steal_walk_absent key f (Link.next_of p) hrest hk.2 (by simp at hf; omega)
    simp [steal_walk, hp0, hn, hne, ih]

theorem steal_walk_present {heap : List rcu_ht_node} {e : Entry} {l2 : List Entry} :
    ∀ {l1 : List Entry} {p : Nat} (fuel : Nat) (prev : Link),
      Chain heap p (l1 ++ e :: l2) → e.key ∉ l1.map Entry.key →
      (l1 ++ e :: l2).length < fuel →
      steal_walk heap e.key fuel prev p = some (some (link_before prev l1, e.addr))
  | [], p, fuel, prev, h, _, hf => by
    obtain ⟨hp, n, hn, hkey, _, _, _⟩ := h
    obtain ⟨f, rfl⟩ : ∃ f, fuel = f + 1 := ⟨fuel - 1, by simp at hf; omega⟩
    have hp0 : p ≠ 0 := by have := deref_bounds hn; omega
    subst hp
    simp [steal_walk, hp0, hn, hkey, link_before]
  | x :: l1, p, fuel, prev, h, hk, hf => by
    obtain ⟨hp, n, hn, hkey, _, _, hrest⟩ := h
    obtain ⟨f, rfl⟩ : ∃ f, fuel = f + 1 := ⟨fuel - 1, by simp at hf; omega⟩
    have hp0 : p ≠ 0 := by have := deref_bounds hn; omega
    rw [List.map_cons, List.mem_cons, not_or] at hk
    have hne : ¬ n.key = e.key := fun hh => hk.1 (hh.symm.trans hkey)
    have ih := steal_walk_present f (Link.next_of p) hrest hk.2 (by simp at hf ⊢; omega)
    subst hp
    simp [steal_walk, hp0, hn, hne, ih, link_before]

theorem Chain.middle {heap : List rcu_ht_node} {x y : Entry} {l2 : List Entry} :
    ∀ {l1 : List Entry} {p : Nat}, Chain heap p (l1 ++ x :: y :: l2) →
      ∃ nx, deref heap x.addr = some nx ∧ nx.next = y.addr
  | [], p, h => by
    obtain ⟨hp, n, hn, _, _, _, hrest⟩ := h
    obtain ⟨hq, _⟩ := hrest
    exact ⟨n, hp ▸ hn, hq⟩
  | _ :: _, _, h => by
    obtain ⟨_, _, _, _, _, _, hrest⟩ := h
    exact Chain.middle hrest

theorem Chain.tail_of {heap : List rcu_ht_node} {y : Entry} {l2 : List Entry} :
    ∀ {l1 : List Entry} {p : Nat}, Chain heap p (l1 ++ y :: l2) →
      ∀ {ny : rcu_ht_node}, deref heap y.addr = some ny → Chain heap ny.next l2
  | [], p, h, ny, hy => by
    obtain ⟨hp, n, hn, _, _, _, hrest⟩ := h
    rw [hp, hy] at hn
    cases hn
    exact hrest
  | _ :: _, _, h, _, hy => by
    obtain ⟨_, _, _, _, _, _, hrest⟩ := h
    exact Chain.tail_of hrest hy

theorem Chain.relink {heap heap2 : List rcu_ht_node} {x y : Entry} {l2 : List Entry}
    {nx ny : rcu_ht_node} (hx : deref heap x.addr = some nx) (hy : deref heap y.addr = some ny)
    (hx2 : deref heap2 x.addr = some { nx with next := ny.next }) :
    ∀ {l1 : List Entry} {p : Nat}, Chain heap p (l1 ++ x :: y :: l2) →
      (∀ z ∈ l1 ++ l2, deref heap2 z.addr = deref heap z.addr) →
      Chain heap2 p (l1 ++ x :: l2)
  | [], p, h, hsame => by
    obtain ⟨hp, n, hn, hk, hd, hf, hrest⟩ := h
    rw [hp, hx] at hn
    cases hn
    obtain ⟨hq, n2, hn2, _, _, _, hrest2⟩ := hrest
    rw [hq, hy] at hn2
    cases hn2
    refine ⟨hp, { nx with next := ny.next }, hp ▸ hx2, hk, hd, hf, ?_⟩
    exact hrest2.frame fun z hz => hsame z (by simpa using hz)
  | w :: l1, p, h, hsame => by
    obtain ⟨hp, n, hn, hk, hd, hf, hrest⟩ := h
    refine ⟨hp, n, ?_, hk, hd, hf, ?_⟩
    · rw [hp, hsame w (by simp), ← hp, hn]
    · exact Chain.relink hx hy hx2 hrest fun z hz =>
        hsame z (by
          rcases List.mem_append.mp hz with h1 | h2
          · simp [h1]
          · simp [h2])

theorem key_ne_of_nodup_middle {l1 l2 : List Entry} {e z : Entry}
    (hnd : ((l1 ++ e :: l2).map Entry.key).Nodup) (hz : z ∈ l1 ++ l2) : z.key ≠ e.key := by
  rw [List.map_append, List.map_cons, List.nodup_middle, List.nodup_cons] at hnd
  intro hk
  apply hnd.1
  rw [← List.map_append, ← hk]
  exact List.mem_map_of_mem _ hz

theorem nodup_remove_middle {l1 l2 : List Entry} {e : Entry}
    (hnd : ((l1 ++ e :: l2).map Entry.key).Nodup) :
    ((l1 ++ l2).map Entry.key).Nodup ∧ e.key ∉ (l1 ++ l2).map Entry.key := by
  rw [List.map_append, List.map_cons, List.nodup_middle, List.nodup_cons] at hnd
  rw [List.map_append]
  exact ⟨hnd.2, hnd.1⟩

theorem Rep.cross_addr_ne {m : Machine} {B : Nat → List Entry} (h : Rep m B) {i j : Nat}
    (hi : i < m.ht.tbl.length) (hj : j < m.ht.tbl.length) (hij : i ≠ j) {x y : Entry}
    (hx : x ∈ B i) (hy : y ∈ B j) : x.addr ≠ y.addr := by
  intro ha
  obtain ⟨nx, hnx, hkx, _⟩ := (h.chain i hi).entry hx
  obtain ⟨ny, hny, hky, _⟩ := (h.chain j hj).entry hy
  rw [ha, hny] at hnx
  cases hnx
  apply hij
  rw [← h.placed i hi x hx, ← h.placed j hj y hy, ← hkx, ← hky]

/-- A table whose bucket `i` is rewired and whose other chains keep their
nodes still satisfies the invariant. -/
theorem Rep.rewire {m m2 : Machine} {B : Nat → List Entry} (h : Rep m B) {i : Nat}
    (hi : i < m.ht.tbl.length) {l : List Entry} (hst : SameTable m m2)
    (hsize : m2.ht.size_add = m.ht.size_add ∧ m2.ht.size_lookup = m.ht.size_lookup)
    (hlen : m2.heap.length = m.heap.length)
    (hhead : ∀ j, j < m.ht.tbl.length → j ≠ i → m2.ht.tbl.getD j 0 = m.ht.tbl.getD j 0)
    (hother : ∀ j, j < m.ht.tbl.length → j ≠ i → ∀ x ∈ B j,
      deref m2.heap x.addr = deref m.heap x.addr)
    (hch : Chain m2.heap (m2.ht.tbl.getD i 0) l) (hsub : ∀ x ∈ l, x ∈ B i)
    (hll : l.length ≤ (B i).length) (hnd : (l.map Entry.key).Nodup) :
    Rep m2 (Function.update B i l) := by
  refine ⟨by rw [hst.2]; exact h.size_pos, by rw [hst.2, hsize.1]; exact h.size_add,
    by rw [hst.2, hsize.2]; exact h.size_lookup, ?_, ?_, ?_, ?_⟩
  · intro j hj
    rw [hst.2] at hj
    by_cases hji : j = i
    · subst hji
      rw [Function.update_same]
      exact hch
    · rw [Function.update_noteq hji, hhead j hj hji]
      exact (h.chain j hj).frame (hother j hj hji)
  · intro j hj
    rw [hst.2] at hj
    rw [hlen]
    by_cases hji : j = i
    · subst hji
      rw [Function.update_same]
      exact hll.trans (h.short j hj)
    · rw [Function.update_noteq hji]
      exact h.short j hj
  · intro j hj
    rw [hst.2] at hj
    by_cases hji : j = i
    · subst hji
      rw [Function.update_same]
      exact hnd
    · rw [Function.update_noteq hji]
      exact h.nodup j hj
  · intro j hj x hx
    rw [hst.2] at hj
    rw [hst.home_eq]
    by_cases hji : j = i
    · subst hji
      rw [Function.update_same] at hx
      exact h.placed j hj x (hsub x hx)
    · rw [Function.update_noteq hji] at hx
      exact h.placed j hj x hx

theorem steal_first {m : Machine} {B : Nat → List Entry} (h : Rep m B) {e : Entry}
    {l1 l2 : List Entry} (hs : B (home m e.key) = l1 ++ e :: l2) :
    ∃ m2, (∀ f, ht_steal_retry e.key (f + 1) 0 m = ht_steal_retry e.key f e.addr m2) ∧
      Rep m2 (Function.update B (home m e.key) (l1 ++ l2)) ∧ SameTable m m2 ∧
      m2.log = m.log ∧ m2.heap.length = m.heap.length ∧
      ∃ nd, deref m2.heap e.addr = some nd ∧ nd.data = e.data := by
  have hi := h.home_lt e.key
  have hch := h.chain _ hi
  have hnd := h.nodup _ hi
  have hshort := h.short _ hi
  rw [hs] at hch hnd hshort
  have hmem : e ∈ l1 ++ e :: l2 := by simp
  obtain ⟨n, hn, hnk, hndata, hnf⟩ := hch.entry hmem
  have hnotin : e.key ∉ l1.map Entry.key := fun hin =>
    (nodup_remove_middle hnd).2 (by rw [List.map_append]; exact List.mem_append_left _ hin)
  have hwalk := steal_walk_present (m.heap.length + 1) (Link.bucket (home m e.key)) hch hnotin
    (Nat.lt_succ_of_le hshort)
  have haddr : ∀ z ∈ l1 ++ l2, z.addr ≠ e.addr := fun z hz =>
    hch.addr_ne (by
      rcases List.mem_append.mp hz with h1 | h2
      · simp [h1]
      · simp [h2]) hmem (key_ne_of_nodup_middle hnd hz)
  have hsub : ∀ z ∈ l1 ++ l2, z ∈ B (home m e.key) := fun z hz => by
    rw [hs]
    rcases List.mem_append.mp hz with h1 | h2
    · simp [h1]
    · simp [h2]
  have hll : (l1 ++ l2).length ≤ (B (home m e.key)).length := by
    rw [hs]; simp
  have hother : ∀ j, j < m.ht.tbl.length → j ≠ home m e.key → ∀ x ∈ B j, x.addr ≠ e.addr :=
    fun j hj hji x hx => h.cross_addr_ne hj hi hji hx (by rw [hs]; exact hmem)
  rcases List.eq_nil_or_concat l1 with rfl | ⟨l0, x, hl1⟩
  · -- the node is the bucket head
    have hhead : m.ht.tbl.getD (home m e.key) 0 = e.addr := hch.1
    refine ⟨Machine.set_head
      { m with heap := store m.heap e.addr { n with flags := NODE_STOLEN } }
      (home m e.key) n.next, ?_, ?_, ?_, rfl, ?_, ?_⟩
    · intro f
      rw [ht_steal_retry]
      simp only [h.bucket_lookup, read_link, head_eq hi, hwalk, hn, hnf, link_before]
      rw [if_neg (by simp), if_pos hhead]
      simp only [write_link, if_true]
      rw [if_pos (show home m e.key < m.ht.tbl.length from hi)]
    · have hst : SameTable m (Machine.set_head
          { m with heap := store m.heap e.addr { n with flags := NODE_STOLEN } }
          (home m e.key) n.next) := ⟨rfl, by simp [Machine.set_head]⟩
      refine h.rewire hi hst ⟨rfl, rfl⟩ (store_length _ _ _) ?_ ?_ ?_ hsub hll
        (nodup_remove_middle hnd).1
      · intro j _ hji
        simp [Machine.set_head, List.getD_eq_getElem?_getD, List.getElem?_set_ne (Ne.symm hji)]
      · intro j hj hji x hx
        exact deref_store_ne _ (hother j hj hji x hx)
      · have hget : (Machine.set_head
            { m with heap := store m.heap e.addr { n with flags := NODE_STOLEN } }
            (home m e.key) n.next).ht.tbl.getD (home m e.key) 0 = n.next := by
          simp [Machine.set_head, List.getD_eq_getElem?_getD, List.getElem?_set_self hi]
        rw [hget]
        exact (hch.tail_of hn).frame fun z hz => deref_store_ne _ (haddr z hz)
    · exact ⟨rfl, by simp [Machine.set_head]⟩
    · exact store_length _ _ _
    · exact ⟨_, deref_store_eq _ hn, hndata⟩
  · -- the node hangs off the `next` field of `x`
    rw [List.concat_eq_append] at hl1
    subst hl1
    have hch2 : Chain m.heap (m.ht.tbl.getD (home m e.key) 0) (l0 ++ x :: e :: l2) := by
      simpa using hch
    have hnd2 : ((l0 ++ x :: (e :: l2)).map Entry.key).Nodup := by
      simpa using hnd
    obtain ⟨nx, hnx, hnxn⟩ := hch2.middle
    have hxe : x.addr ≠ e.addr := haddr x (by simp)
    have hxmem : x ∈ B (home m e.key) := by rw [hs]; simp
    have hx1 : deref (store m.heap e.addr { n with flags := NODE_STOLEN }) x.addr = some nx := by
      rw [deref_store_ne _ hxe, hnx]
    refine ⟨{ m with heap := (store (store m.heap e.addr { n with flags := NODE_STOLEN }) x.addr
        { nx with next := n.next }) }, ?_, ?_, ⟨rfl, rfl⟩, rfl, ?_, ?_⟩
    · intro f
      rw [ht_steal_retry]
      simp only [h.bucket_lookup, read_link, head_eq hi, hwalk, hn, hnf, link_before_concat]
      rw [if_neg (by simp)]
      simp only [if_true, hx1, Option.map_some', hnxn, write_link]
    · refine h.rewire hi ⟨rfl, rfl⟩ ⟨rfl, rfl⟩ (by simp [store_length]) (fun _ _ _ => rfl) ?_ ?_
        hsub hll (nodup_remove_middle hnd).1
      · intro j hj hji z hz
        show deref (store (store m.heap e.addr _) x.addr _) z.addr = _
        rw [deref_store_ne _ (h.cross_addr_ne hj hi hji hz hxmem),
          deref_store_ne _ (hother j hj hji z hz)]
      · have hrel : Chain (store (store m.heap e.addr { n with flags := NODE_STOLEN }) x.addr
            { nx with next := n.next }) (m.ht.tbl.getD (home m e.key) 0) (l0 ++ x :: l2) := by
          refine Chain.relink hnx hn (deref_store_eq _ hx1) hch2 fun z hz => ?_
          have hze : z.addr ≠ e.addr := haddr z (by
            rcases List.mem_append.mp hz with h1 | h2
            · simp [h1]
            · simp [h2])
          have hzx : z.addr ≠ x.addr := hch2.addr_ne (by
            rcases List.mem_append.mp hz with h1 | h2
            · simp [h1]
            · simp [h2]) (by simp) (key_ne_of_nodup_middle hnd2 (by
            rcases List.mem_append.mp hz with h1 | h2
            · simp [h1]
            · simp [h2]))
          rw [deref_store_ne _ hzx, deref_store_ne _ hze]
        simpa using hrel
    · simp [store_length]
    · refine ⟨{ n with flags := NODE_STOLEN }, ?_, hndata⟩
      show deref (store (store m.heap e.addr _) x.addr _) e.addr = _
      rw [deref_store_ne _ (Ne.symm hxe)]
      exact deref_store_eq _ hn

theorem Rep.emit {m : Machine} {B : Nat → List Entry} (h : Rep m B) (e : Event) :
    Rep (m.emit e) B :=
  ⟨h.size_pos, h.size_add, h.size_lookup, h.chain, h.short, h.nodup, h.placed⟩

theorem steal_last {m : Machine} {B : Nat → List Entry} (h : Rep m B) {key : Nat}
    (hk : key ∉ (B (home m key)).map Entry.key) (f d : Nat) :
    ht_steal_retry key (f + 1) d m =
      if d ≠ 0 then
        match deref m.heap d with
        | none => none
        | some nd => some (nd.data, m.emit (Event.call_rcu_free (Obj.node d)))
      else some (ENOENT_PTR, m) := by
  have hi := h.home_lt key
  have hwalk := steal_walk_absent key (m.heap.length + 1) (Link.bucket (home m key))
    (h.chain _ hi) hk (Nat.lt_succ_of_le (h.short _ hi))
  rw [ht_steal_retry]
  simp only [h.bucket_lookup, read_link, head_eq hi, hwalk]

theorem ht_steal_absent {m : Machine} {B : Nat → List Entry} (h : Rep m B) {key : Nat}
    (hk : key ∉ (B (home m key)).map Entry.key) : ht_steal m key = some (ENOENT_PTR, m) := by
  rw [ht_steal, steal_last h hk]
  simp

theorem ht_steal_split {m : Machine} {B : Nat → List Entry} (h : Rep m B) {e : Entry}
    {l1 l2 : List Entry} (hs : B (home m e.key) = l1 ++ e :: l2) :
    ∃ m1, ht_steal m e.key = some (e.data, m1) ∧
      Rep m1 (Function.update B (home m e.key) (l1 ++ l2)) ∧ SameTable m m1 ∧
      m1.log = m.log ++ [Event.call_rcu_free (Obj.node e.addr)] ∧
      m1.heap.length = m.heap.length := by
  have hi := h.home_lt e.key
  have hshort := h.short _ hi
  have hnd := h.nodup _ hi
  rw [hs] at hshort hnd
  obtain ⟨f, hf⟩ : ∃ f, m.heap.length = f + 1 :=
    ⟨m.heap.length - 1, by simp at hshort; omega⟩
  obtain ⟨m2, hstep, hrep, hst, hlog, hlen, nd, hnd2, hdata⟩ := steal_first h hs
  have habs : e.key ∉ (Function.update B (home m e.key) (l1 ++ l2)
      (home m2 e.key)).map Entry.key := by
    rw [hst.home_eq, Function.update_same]
    exact (nodup_remove_middle hnd).2
  have he0 : e.addr ≠ 0 := by have := deref_bounds hnd2; omega
  refine ⟨m2.emit (Event.call_rcu_free (Obj.node e.addr)), ?_, hrep.emit _, hst, ?_, hlen⟩
  · rw [ht_steal, hf, hstep, steal_last hrep habs, if_pos he0, hnd2]
    simp only [hdata]
  · show m2.log ++ _ = _
    rw [hlog]

/-- Stealing a key that is linked: the payload comes back and the node leaves
its chain. -/
theorem ht_steal_present {m : Machine} {B : Nat → List Entry} (h : Rep m B) {e : Entry}
    (he : e ∈ B (home m e.key)) :
    ∃ m1, ht_steal m e.key = some (e.data, m1) ∧
      Rep m1 (Function.update B (home m e.key) ((B (home m e.key)).erase e)) ∧
      SameTable m m1 ∧ m1.log = m.log ++ [Event.call_rcu_free (Obj.node e.addr)] ∧
      m1.heap.length = m.heap.length := by
  obtain ⟨l1, l2, hs, hnot⟩ := List.eq_append_cons_of_mem he
  obtain ⟨m1, h1, h2, h3⟩ := ht_steal_split h hs
  refine ⟨m1, h1, ?_, h3⟩
  rw [hs, List.erase_append_right _ hnot, List.erase_cons_head]
  exact h2

/-! ## `ht_delete_all` -/

theorem Chain.nil_of_null {heap : List rcu_ht_node} {l : List Entry} (h : Chain heap 0 l) :
    l = [] :=
  Chain.unique h (show Chain heap 0 [] from rfl)

theorem delete_all_chain_spec (free_fct : Nat) :
    ∀ (l : List Entry) (x : Entry) (p cnt fuel : Nat) (m : Machine),
      m.ht.free_fct = free_fct → Chain m.heap p (x :: l) →
      ((x :: l).map Entry.key).Nodup → l.length < fuel →
      ∃ m1, delete_all_chain fuel p cnt m =
          (if cnt + (x :: l).length ≤ INT_MAX then some (cnt + (x :: l).length, m1) else none) ∧
        m1.ht = m.ht ∧ m1.heap.length = m.heap.length ∧
        m1.log = m.log ++ chain_events free_fct (x :: l) ∧
        ∀ q, (∀ z ∈ x :: l, z.addr ≠ q) → deref m1.heap q = deref m.heap q
  | [], x, p, cnt, fuel, m, hfct, hch, _, hf => by
    obtain ⟨hp, n, hn, _, hd, _, hrest⟩ := hch
    obtain ⟨f, rfl⟩ : ∃ f, fuel = f + 1 := ⟨fuel - 1, by simp at hf; omega⟩
    have hnext : n.next = 0 := hrest
    have hne : ∀ q, (∀ z ∈ [x], z.addr ≠ q) → q ≠ p := fun q hq => by
      rw [hp]; exact Ne.symm (hq x (by simp))
    have key : ∀ m3 : Machine, m3.ht = m.ht →
        m3.heap = store m.heap p { n with next := 0 } →
        m3.log = m.log ++ chain_events free_fct [x] →
        ∃ m1, (if cnt + 1 > INT_MAX then none
            else if n.next = 0 then some (cnt + 1, m3)
            else delete_all_chain f n.next (cnt + 1) m3) =
            (if cnt + [x].length ≤ INT_MAX then some (cnt + [x].length, m1) else none) ∧
          m1.ht = m.ht ∧ m1.heap.length = m.heap.length ∧
          m1.log = m.log ++ chain_events free_fct [x] ∧
          ∀ q, (∀ z ∈ [x], z.addr ≠ q) → deref m1.heap q = deref m.heap q := by
      intro m3 hht hheap hlog
      refine ⟨m3, ?_, hht, by rw [hheap, store_length], hlog, fun q hq => ?_⟩
      · by_cases hc : cnt + 1 > INT_MAX
        · rw [if_pos hc, if_neg (by simp; omega)]
        · rw [if_neg hc, if_pos hnext, if_pos (by simp; omega)]
          rfl
      · rw [hheap]
        exact deref_store_ne _ (hne q hq)
    rw [delete_all_chain]
    simp only [hn]
    by_cases hd0 : n.data = 0
    · have hx0 : x.data = 0 := hd ▸ hd0
      simp only [if_neg (not_not.mpr hd0)]
      exact key _ rfl rfl (by simp [Machine.emit, chain_events, hx0, hp])
    · have hx0 : ¬ x.data = 0 := hd ▸ hd0
      simp only [if_pos (show n.data ≠ 0 from hd0)]
      exact key _ rfl rfl (by simp [Machine.emit, chain_events, hx0, hp, hfct, hd])
  | y :: l, x, p, cnt, fuel, m, hfct, hch, hnd, hf => by
    have hch0 := hch
    obtain ⟨hp, n, hn, _, hd, _, hrest⟩ := hch
    obtain ⟨f, rfl⟩ : ∃ f, fuel = f + 1 := ⟨fuel - 1, by simp at hf; omega⟩
    have hnext : ¬ n.next = 0 := by
      intro h0
      rw [h0] at hrest
      exact absurd hrest.nil_of_null (by simp)
    have hnd1 := hnd
    rw [List.map_cons, List.nodup_cons] at hnd1
    have hax : ∀ z ∈ y :: l, z.addr ≠ p := fun z hz => by
      rw [hp]
      refine hch0.addr_ne (List.mem_cons_of_mem _ hz) (List.mem_cons_self _ _) ?_
      intro hk
      exact hnd1.1 (List.mem_map.mpr ⟨z, hz, hk⟩)
    have key : ∀ m3 : Machine, m3.ht = m.ht →
        m3.heap = store m.heap p { n with next := 0 } →
        m3.log = m.log ++ ((if x.data ≠ 0 then [Event.call_rcu free_fct x.data] else []) ++
          [Event.call_rcu_free (Obj.node x.addr)]) →
        ∃ m1, (if cnt + 1 > INT_MAX then none
            else if n.next = 0 then some (cnt + 1, m3)
            else delete_all_chain f n.next (cnt + 1) m3) =
            (if cnt + (x :: y :: l).length ≤ INT_MAX then
              some (cnt + (x :: y :: l).length, m1) else none) ∧
          m1.ht = m.ht ∧ m1.heap.length = m.heap.length ∧
          m1.log = m.log ++ chain_events free_fct (x :: y :: l) ∧
          ∀ q, (∀ z ∈ x :: y :: l, z.addr ≠ q) → deref m1.heap q = deref m.heap q := by
      intro m3 hht hheap hlog
      have hch3 : Chain m3.heap n.next (y :: l) := by
        rw [hheap]
        exact hrest.frame fun z hz => deref_store_ne _ (hax z hz)
      obtain ⟨m1, h1, h2, h3, h4, h5⟩ := delete_all_chain_spec free_fct l y n.next (cnt + 1) f m3
        (by rw [hht]; exact hfct) hch3 hnd1.2 (by simp at hf ⊢; omega)
      refine ⟨m1, ?_, h2.trans hht, ?_, ?_, ?_⟩
      · by_cases hc : cnt + 1 > INT_MAX
        · rw [if_pos hc, if_neg (by simp; omega)]
        · rw [if_neg hc, if_neg hnext, h1]
          have e1 : cnt + 1 + (y :: l).length = cnt + (x :: y :: l).length := by
            simp only [List.length_cons]; omega
          rw [e1]
      · rw [h3, hheap, store_length]
      · rw [h4, hlog]
        simp [chain_events]
      · intro q hq
        rw [h5 q fun z hz => hq z (List.mem_cons_of_mem _ hz), hheap]
        exact deref_store_ne _ (by rw [hp]; exact Ne.symm (hq x (by simp)))
    rw [delete_all_chain]
    simp only [hn]
    by_cases hd0 : n.data = 0
    · have hx0 : x.data = 0 := hd ▸ hd0
      simp only [if_neg (not_not.mpr hd0)]
      exact key _ rfl rfl (by simp [Machine.emit, hx0, hp])
    · have hx0 : ¬ x.data = 0 := hd ▸ hd0
      simp only [if_pos (show n.data ≠ 0 from hd0)]
      exact key _ rfl rfl (by simp [Machine.emit, hx0, hp, hfct, hd])

theorem Rep.congr {m : Machine} {B B1 : Nat → List Entry} (h : Rep m B)
    (hB : ∀ j, j < m.ht.tbl.length → B1 j = B j) : Rep m B1 where
  size_pos := h.size_pos
  size_add := h.size_add
  size_lookup := h.size_lookup
  chain := fun j hj => by rw [hB j hj]; exact h.chain j hj
  short := fun j hj => by rw [hB j hj]; exact h.short j hj
  nodup := fun j hj => by rw [hB j hj]; exact h.nodup j hj
  placed := fun j hj => by rw [hB j hj]; exact h.placed j hj

theorem linked_congr {B B1 : Nat → List Entry} :
    ∀ (n i : Nat), (∀ j, i ≤ j → j < i + n → B1 j = B j) → linked B1 i n = linked B i n
  | 0, _, _ => rfl
  | n + 1, i, h => by
    rw [linked, linked, h i (le_refl _) (by omega),
      linked_congr n (i + 1) fun j h1 h2 => h j (by omega) (by omega)]

theorem table_events_congr (fct : Nat) {B B1 : Nat → List Entry} :
    ∀ (n i : Nat), (∀ j, i ≤ j → j < i + n → B1 j = B j) →
      table_events fct B1 i n = table_events fct B i n
  | 0, _, _ => rfl
  | n + 1, i, h => by
    rw [table_events, table_events, h i (le_refl _) (by omega),
      table_events_congr fct n (i + 1) fun j h1 h2 => h j (by omega) (by omega)]

/-- Cutting the head of bucket `i` and taking its chain apart. -/
theorem delete_all_bucket {m : Machine} {B : Nat → List Entry} (h : Rep m B) {i : Nat}
    (hi : i < m.ht.tbl.length) (cnt : Nat) (hcnt : cnt ≤ INT_MAX)
    (k : Nat → Machine → Option (Nat × Machine)) :
    ∃ m2, (match (if m.ht.tbl.getD i 0 = 0 then some (cnt, m.set_head i 0)
          else delete_all_chain ((m.set_head i 0).heap.length + 1) (m.ht.tbl.getD i 0) cnt
            (m.set_head i 0)) with
        | none => none
        | some (c, m1) => k c m1) =
        (if cnt + (B i).length ≤ INT_MAX then k (cnt + (B i).length) m2 else none) ∧
      Rep m2 (Function.update B i []) ∧ SameTable m m2 ∧
      m2.log = m.log ++ chain_events m.ht.free_fct (B i) := by
  have hst : SameTable m (m.set_head i 0) := ⟨rfl, by simp [Machine.set_head]⟩
  have hget : (m.set_head i 0).ht.tbl.getD i 0 = 0 := by
    simp [Machine.set_head, List.getD_eq_getElem?_getD, List.getElem?_set_self hi]
  have hheads : ∀ j, j < m.ht.tbl.length → j ≠ i →
      (m.set_head i 0).ht.tbl.getD j 0 = m.ht.tbl.getD j 0 := fun j _ hji => by
    simp [Machine.set_head, List.getD_eq_getElem?_getD, List.getElem?_set_ne (Ne.symm hji)]
  have hch := h.chain i hi
  by_cases h0 : m.ht.tbl.getD i 0 = 0
  · rw [h0] at hch
    have hnil := hch.nil_of_null
    refine ⟨m.set_head i 0, ?_, ?_, hst, by simp [hnil, chain_events, Machine.set_head]⟩
    · rw [if_pos h0, hnil, if_pos (by simpa using hcnt)]
      rfl
    · exact h.rewire hi hst ⟨rfl, rfl⟩ rfl hheads (fun _ _ _ _ _ => rfl) (by rw [hget]; rfl)
        (by simp) (by simp) (by simp)
  · obtain ⟨x, l, hxl⟩ : ∃ x l, B i = x :: l := by
      cases hB : B i with
      | nil =>
        rw [hB] at hch
        exact absurd hch h0
      | cons x l => exact ⟨x, l, rfl⟩
    rw [hxl] at hch
    have hnd := h.nodup i hi
    have hshort := h.short i hi
    rw [hxl] at hnd hshort
    obtain ⟨m2, h1, h2, h3, h4, h5⟩ := delete_all_chain_spec m.ht.free_fct l x
      (m.ht.tbl.getD i 0) cnt ((m.set_head i 0).heap.length + 1) (m.set_head i 0) rfl hch hnd
      (by simp at hshort; exact Nat.lt_succ_of_le (by show l.length ≤ m.heap.length; omega))
    have hst2 : SameTable m m2 := by
      refine ⟨?_, ?_⟩
      · rw [h2]; rfl
      · rw [h2]; exact hst.2
    refine ⟨m2, ?_, ?_, hst2, by rw [h4, hxl]; rfl⟩
    · rw [if_neg h0, h1, hxl]
      by_cases hb : cnt + (x :: l).length ≤ INT_MAX
      · rw [if_pos hb, if_pos hb]
      · rw [if_neg hb, if_neg hb]
    refine h.rewire hi hst2 ⟨by rw [h2]; rfl, by rw [h2]; rfl⟩ h3 ?_ ?_ ?_ (by simp) (by simp)
      (by simp)
    · intro j hj hji
      rw [h2]
      exact hheads j hj hji
    · intro j hj hji z hz
      exact h5 z.addr fun w hw => Ne.symm
        (h.cross_addr_ne hj hi hji hz (by rw [hxl]; exact hw))
    · rw [h2, hget]
      rfl

theorem delete_all_from_spec :
    ∀ (n i cnt : Nat) (m : Machine) (B : Nat → List Entry), Rep m B →
      i + n = m.ht.tbl.length → cnt ≤ INT_MAX →
      ∃ m1, delete_all_from (n + 1) i cnt m =
          (if cnt + linked B i n ≤ INT_MAX then some (cnt + linked B i n, m1) else none) ∧
        Rep m1 (fun j => if i ≤ j then [] else B j) ∧ SameTable m m1 ∧
        m1.log = m.log ++ table_events m.ht.free_fct B i n
  | 0, i, cnt, m, B, h, hin, hcnt => by
    have hlt : ¬ i < m.ht.size_lookup := by rw [h.size_lookup]; omega
    refine ⟨m, by simp [delete_all_from, hlt, linked, hcnt], ?_, SameTable.refl m,
      by simp [table_events]⟩
    exact h.congr fun j hj => by
      have : ¬ i ≤ j := by omega
      simp [this]
  | n + 1, i, cnt, m, B, h, hin, hcnt => by
    have hi : i < m.ht.tbl.length := by omega
    have hlt : i < m.ht.size_lookup := by rw [h.size_lookup]; exact hi
    obtain ⟨m2, hstep, hrep2, hst2, hlog2⟩ := delete_all_bucket h hi cnt hcnt
      (fun c m1 => delete_all_from (n + 1) (i + 1) c m1)
    have hl : linked (Function.update B i []) (i + 1) n = linked B (i + 1) n :=
      linked_congr n (i + 1) fun j h1 _ => Function.update_noteq (by omega) _ _
    have ht : table_events m.ht.free_fct (Function.update B i []) (i + 1) n =
        table_events m.ht.free_fct B (i + 1) n :=
      table_events_congr _ n (i + 1) fun j h1 _ => Function.update_noteq (by omega) _ _
    have hfct : m2.ht.free_fct = m.ht.free_fct := by rw [hst2.1]
    have hstep2 : delete_all_from (n + 1 + 1) i cnt m =
        (if cnt + (B i).length ≤ INT_MAX then
          delete_all_from (n + 1) (i + 1) (cnt + (B i).length) m2 else none) := by
      rw [delete_all_from]
      simp only [hlt, if_true, head_eq hi]
      rw [← hstep]
      by_cases h0 : m.ht.tbl.getD i 0 = 0
      · rw [if_pos h0, if_pos h0]
      · rw [if_neg h0, if_neg h0]
    have fin : ∀ m1, Rep m1 (fun j => if i + 1 ≤ j then [] else Function.update B i [] j) →
        Rep m1 (fun j => if i ≤ j then [] else B j) := fun m1 hrep1 =>
      hrep1.congr fun j _ => by
        by_cases hij : i ≤ j
        · by_cases hij2 : i + 1 ≤ j
          · simp [hij, hij2]
          · have : j = i := by omega
            subst this
            simp
        · have h1 : ¬ i + 1 ≤ j := by omega
          have h2 : j ≠ i := by omega
          simp [hij, h1, Function.update_noteq h2]
    by_cases hb : cnt + (B i).length ≤ INT_MAX
    · obtain ⟨m1, hrun, hrep1, hst1, hlog1⟩ := delete_all_from_spec n (i + 1)
        (cnt + (B i).length) m2 (Function.update B i []) hrep2 (by rw [hst2.2]; omega) hb
      refine ⟨m1, ?_, fin m1 hrep1, hst2.trans hst1, ?_⟩
      · rw [hstep2, if_pos hb, hrun, hl, linked, Nat.add_assoc]
      · rw [hlog1, hlog2, hfct, ht, table_events]
        simp
    · obtain ⟨m1, _, hrep1, hst1, hlog1⟩ := delete_all_from_spec n (i + 1)
        0 m2 (Function.update B i []) hrep2 (by rw [hst2.2]; omega) (Nat.zero_le _)
      refine ⟨m1, ?_, fin m1 hrep1, hst2.trans hst1, ?_⟩
      · rw [hstep2, if_neg hb, if_neg (by rw [linked]; omega)]
      · rw [hlog1, hlog2, hfct, ht, table_events]
        simp

/-! ## Whole calls -/

theorem ht_delete_all_spec {m : Machine} {B : Nat → List Entry} (h : Rep m B) :
    ∃ m1, ht_delete_all m =
        (if linked B 0 m.ht.tbl.length ≤ INT_MAX then
          some ((linked B 0 m.ht.tbl.length : Int), m1) else none) ∧
      Rep m1 (fun _ => []) ∧ SameTable m m1 ∧
      m1.log = m.log ++ table_events m.ht.free_fct B 0 m.ht.tbl.length := by
  obtain ⟨m1, h1, h2, h3, h4⟩ := delete_all_from_spec m.ht.tbl.length 0 0 m B h (by simp)
    (Nat.zero_le _)
  refine ⟨m1, ?_, h2.congr fun j _ => by simp, h3, h4⟩
  rw [ht_delete_all, h.size_lookup, h1]
  by_cases hb : linked B 0 m.ht.tbl.length ≤ INT_MAX
  · simp [hb]
  · simp [hb]

theorem rep_new (hash_fct : Nat → Nat → Nat → Nat) (free_fct init_size keylen hashseed : Nat)
    (hpos : 0 < init_size) :
    Rep (ht_new hash_fct free_fct init_size keylen hashseed) (fun _ => []) := by
  refine ⟨by simpa [ht_new] using hpos, by simp [ht_new], by simp [ht_new], ?_, by simp,
    by simp, by simp⟩
  intro i hi
  have hi2 : i < init_size := by simpa [ht_new] using hi
  show (List.replicate init_size 0).getD i 0 = 0
  simp [List.getD_eq_getElem?_getD, List.getElem?_replicate, hi2]

theorem ht_steal_cases {m : Machine} {B : Nat → List Entry} (h : Rep m B) (key : Nat) :
    (key ∉ (B (home m key)).map Entry.key ∧ ht_steal m key = some (ENOENT_PTR, m)) ∨
    ∃ e ∈ B (home m key), e.key = key ∧ ∃ m1, ht_steal m key = some (e.data, m1) ∧
      Rep m1 (Function.update B (home m key) ((B (home m key)).erase e)) ∧
      SameTable m m1 ∧ m1.log = m.log ++ [Event.call_rcu_free (Obj.node e.addr)] ∧
      m1.heap.length = m.heap.length := by
  by_cases hk : key ∈ (B (home m key)).map Entry.key
  · right
    obtain ⟨e, he, rfl⟩ := List.mem_map.mp hk
    exact ⟨e, he, rfl, ht_steal_present h he⟩
  · exact Or.inl ⟨hk, ht_steal_absent h hk⟩

theorem ht_add_cases {m : Machine} {B : Nat → List Entry} (h : Rep m B) (key data : Nat) :
    (key ∈ (B (home m key)).map Entry.key ∧
      ∃ m1, ht_add m key data = some (-EEXIST, m1) ∧ Rep m1 B ∧ SameTable m m1 ∧
        m1.ht.tbl = m.ht.tbl ∧
        m1.log = m.log ++ [Event.calloc (Obj.node (m.heap.length + 1))]) ∨
    (key ∉ (B (home m key)).map Entry.key ∧
      ∃ m1, ht_add m key data = some (0, m1) ∧
        Rep m1 (Function.update B (home m key)
          ({ addr := m.heap.length + 1, key := key, data := data } :: B (home m key))) ∧
        SameTable m m1 ∧
        m1.log = m.log ++ [Event.calloc (Obj.node (m.heap.length + 1))]) := by
  by_cases hk : key ∈ (B (home m key)).map Entry.key
  · exact Or.inl ⟨hk, _, ht_add_exists h key data hk, h.alloc _ _, ⟨rfl, rfl⟩, rfl, rfl⟩
  · exact Or.inr ⟨hk, _, ht_add_fresh h key data hk, h.after_add key data hk,
      ⟨rfl, by simp [added]⟩, rfl⟩

theorem exec_rep {m m1 : Machine} {B : Nat → List Entry} (h : Rep m B) {op : Op} {r : Ret}
    (hx : exec m op = some (r, m1)) : ∃ B1, Rep m1 B1 ∧ SameTable m m1 := by
  cases op with
  | add key data =>
    rcases ht_add_cases h key data with ⟨_, m2, h1, h2, h3, _⟩ | ⟨_, m2, h1, h2, h3, _⟩
    · simp only [exec, h1, Option.map_some', Option.some.injEq, Prod.mk.injEq] at hx
      exact ⟨_, hx.2 ▸ h2, hx.2 ▸ h3⟩
    · simp only [exec, h1, Option.map_some', Option.some.injEq, Prod.mk.injEq] at hx
      exact ⟨_, hx.2 ▸ h2, hx.2 ▸ h3⟩
  | steal key =>
    rcases ht_steal_cases h key with ⟨_, h1⟩ | ⟨e, _, _, m2, h1, h2, h3, _⟩
    · simp only [exec, h1, Option.map_some', Option.some.injEq, Prod.mk.injEq] at hx
      exact ⟨_, hx.2 ▸ h, hx.2 ▸ SameTable.refl m⟩
    · simp only [exec, h1, Option.map_some', Option.some.injEq, Prod.mk.injEq] at hx
      exact ⟨_, hx.2 ▸ h2, hx.2 ▸ h3⟩
  | delete key =>
    rcases ht_steal_cases h key with ⟨_, h1⟩ | ⟨e, _, _, m2, h1, h2, h3, _⟩
    · simp only [exec, ht_delete, h1] at hx
      split_ifs at hx <;>
        simp only [Option.map_some', Option.some.injEq, Prod.mk.injEq] at hx
      all_goals first
        | exact ⟨_, hx.2 ▸ h, hx.2 ▸ SameTable.refl m⟩
        | exact ⟨_, hx.2 ▸ h.emit _, hx.2 ▸ SameTable.refl m⟩
    · simp only [exec, ht_delete, h1] at hx
      split_ifs at hx <;>
        simp only [Option.map_some', Option.some.injEq, Prod.mk.injEq] at hx
      all_goals first
        | exact ⟨_, hx.2 ▸ h2, hx.2 ▸ h3⟩
        | exact ⟨_, hx.2 ▸ h2.emit _, hx.2 ▸ h3⟩
  | delete_all =>
    obtain ⟨m2, h1, h2, h3, _⟩ := ht_delete_all_spec h
    simp only [exec, h1] at hx
    split_ifs at hx
    · simp only [Option.map_some', Option.some.injEq, Prod.mk.injEq] at hx
      exact ⟨_, hx.2 ▸ h2, hx.2 ▸ h3⟩
    · simp at hx

theorem reachable_rep {m : Machine} (h : Reachable m) : ∃ B, Rep m B := by
  induction h with
  | new hash_fct free_fct init_size keylen hashseed hpos =>
    exact ⟨_, rep_new hash_fct free_fct init_size keylen hashseed hpos⟩
  | step m op r m1 _ hx ih =>
    obtain ⟨B, hB⟩ := ih
    obtain ⟨B1, h1, _⟩ := exec_rep hB hx
    exact ⟨B1, h1⟩

theorem Rep.chains_eq {m : Machine} {B : Nat → List Entry} (h : Rep m B) {i : Nat}
    (hi : i < m.ht.tbl.length) : chains m i = B i := by
  simp [chains, h.bucket_chain_eq hi]

theorem Rep.canonical {m : Machine} {B : Nat → List Entry} (h : Rep m B) : Rep m (chains m) :=
  h.congr fun _ hj => h.chains_eq hj

theorem Rep.linked_nodes_eq {m : Machine} {B : Nat → List Entry} (h : Rep m B) :
    linked_nodes m = linked B 0 m.ht.tbl.length :=
  linked_congr _ 0 fun j _ hj => h.chains_eq (by omega)

/-! ## The contract of the table -/

/-- C1: in a single-threaded execution on a table made by `ht_new` with a
non-zero size, whenever `ht_add(ht, k, v)` returns `0` the `ht_lookup(ht, k)`
that follows returns `v`. -/
theorem add_then_lookup (m m1 : Machine) (key data : Nat) (h : Reachable m)
    (hadd : ht_add m key data = some (0, m1)) : ht_lookup m1 key = some data := by
  obtain ⟨B, hB⟩ := reachable_rep h
  rcases ht_add_cases hB key data with ⟨_, m2, h1, _⟩ | ⟨_, m2, h1, h2, h3, _⟩
  · rw [h1] at hadd
    simp [EEXIST] at hadd
  · rw [h1] at hadd
    simp only [Option.some.injEq, Prod.mk.injEq, true_and] at hadd
    subst hadd
    rw [h2.lookup, h3.home_eq, Function.update_same]
    simp [chain_find]

theorem add_then_lookup_witness :
    Reachable fresh16 ∧ ht_add fresh16 1 97 = some (0, added fresh16 1 97) ∧
      ht_lookup (added fresh16 1 97) 1 = some 97 :=
  ⟨Reachable.new word_hash 0 16 4 0 (by decide), rfl,
    add_then_lookup fresh16 (added fresh16 1 97) 1 97
      (Reachable.new word_hash 0 16 4 0 (by decide)) rfl⟩

/-- C2: in a single-threaded execution `ht_add(ht, k, v)` returns, and it
returns `-EEXIST` exactly when a node with key `k` is in `k`'s bucket chain;
it then leaves every bucket chain as it was, so that `ht_lookup(ht, k)` still
gives the payload stored first; otherwise it returns `0`. -/
theorem ht_add_eexist (m : Machine) (key data : Nat) (h : Reachable m) :
    ∃ r m1, ht_add m key data = some (r, m1) ∧
      (r = -EEXIST ↔ key ∈ (chains m (home m key)).map Entry.key) ∧
      (r = -EEXIST ∨ r = 0) ∧
      (r = -EEXIST → (∀ i, bucket_chain m1 i = bucket_chain m i) ∧
        ∃ e ∈ chains m (home m key), e.key = key ∧
          ht_lookup m key = some e.data ∧ ht_lookup m1 key = some e.data) := by
  obtain ⟨B, hB⟩ := reachable_rep h
  have hc := hB.chains_eq (hB.home_lt key)
  rcases ht_add_cases hB key data with ⟨hk, m1, h1, h2, h3, h4, _⟩ | ⟨hk, m1, h1, _⟩
  · refine ⟨_, m1, h1, ⟨fun _ => hc ▸ hk, fun _ => rfl⟩, Or.inl rfl, fun _ => ⟨?_, ?_⟩⟩
    · intro i
      by_cases hi : i < m.ht.tbl.length
      · rw [hB.bucket_chain_eq hi, h2.bucket_chain_eq (by rw [h4]; exact hi)]
      · simp only [bucket_chain, h4]
        rw [List.getElem?_eq_none (by omega)]
    · obtain ⟨e, he, hek⟩ := List.mem_map.mp hk
      subst hek
      refine ⟨e, hc ▸ he, rfl, ?_, ?_⟩
      · rw [hB.lookup]
        exact congrArg some (chain_find_of_mem 0 (hB.nodup _ (hB.home_lt _)) he)
      · rw [h2.lookup, h3.home_eq]
        exact congrArg some (chain_find_of_mem 0 (hB.nodup _ (hB.home_lt _)) he)
  · refine ⟨_, m1, h1, ⟨fun h0 => ?_, fun hin => absurd (hc ▸ hin) hk⟩, Or.inr rfl, fun h0 => ?_⟩
    · simp [EEXIST] at h0
    · simp [EEXIST] at h0

theorem ht_add_eexist_witness :
    Reachable (added fresh16 1 97) ∧
      ∃ r m1, ht_add (added fresh16 1 97) 1 98 = some (r, m1) ∧
        (r = -EEXIST ↔
          1 ∈ (chains (added fresh16 1 97) (home (added fresh16 1 97) 1)).map Entry.key) ∧
        (r = -EEXIST ∨ r = 0) ∧
        (r = -EEXIST → (∀ i, bucket_chain m1 i = bucket_chain (added fresh16 1 97) i) ∧
          ∃ e ∈ chains (added fresh16 1 97) (home (added fresh16 1 97) 1), e.key = 1 ∧
            ht_lookup (added fresh16 1 97) 1 = some e.data ∧ ht_lookup m1 1 = some e.data) :=
  ⟨Reachable.step fresh16 (Op.add 1 97) (Ret.int 0) (added fresh16 1 97)
      (Reachable.new word_hash 0 16 4 0 (by decide)) rfl,
    ht_add_eexist (added fresh16 1 97) 1 98
      (Reachable.step fresh16 (Op.add 1 97) (Ret.int 0) (added fresh16 1 97)
        (Reachable.new word_hash 0 16 4 0 (by decide)) rfl)⟩

theorem steal_keeps {m m1 : Machine} {B : Nat → List Entry} (h : Rep m B) {e : Entry}
    (he : e ∈ B (home m e.key)) {key p : Nat} (hs : ht_steal m key = some (p, m1)) :
    (key = e.key → p = e.data) ∧
      (key ≠ e.key → ∃ B1, Rep m1 B1 ∧ SameTable m m1 ∧ e ∈ B1 (home m1 e.key)) := by
  rcases ht_steal_cases h key with ⟨hk, h1⟩ | ⟨e2, he2, hek, m2, h1, h2, h3, _⟩
  · rw [h1] at hs
    simp only [Option.some.injEq, Prod.mk.injEq] at hs
    obtain ⟨_, rfl⟩ := hs
    refine ⟨fun hke => ?_, fun _ => ⟨B, h, SameTable.refl m, he⟩⟩
    subst hke
    exact absurd (List.mem_map_of_mem _ he) hk
  · rw [h1] at hs
    simp only [Option.some.injEq, Prod.mk.injEq] at hs
    obtain ⟨rfl, rfl⟩ := hs
    subst hek
    refine ⟨fun hke => ?_, fun hke => ⟨_, h2, h3, ?_⟩⟩
    · have hnd := h.nodup _ (h.home_lt e.key)
      rw [hke] at he2
      rw [← chain_find_of_mem 0 hnd he, ← hke, chain_find_of_mem 0 (hke ▸ hnd) (hke ▸ he2)]
    · rw [h3.home_eq]
      by_cases hb : home m e.key = home m e2.key
      · rw [hb, Function.update_same]
        have hne : e ≠ e2 := fun hee => hke (hee ▸ rfl)
        exact (List.mem_erase_of_ne hne).mpr (hb ▸ he)
      · rw [Function.update_noteq hb]
        exact he

theorem exec_keeps {m m1 : Machine} {B : Nat → List Entry} (h : Rep m B) {e : Entry}
    (he : e ∈ B (home m e.key)) (hv0 : e.data ≠ 0) (hvs : e.data ≠ ENOENT_PTR) {op : Op}
    {r : Ret} (hx : exec m op = some (r, m1)) (hop : op ≠ Op.delete_all)
    (hrel : ¬ releases e.key (op, r)) : ∃ B1, Rep m1 B1 ∧ e ∈ B1 (home m1 e.key) := by
  cases op with
  | add key data =>
    rcases ht_add_cases h key data with ⟨_, m2, h1, h2, h3, _⟩ | ⟨_, m2, h1, h2, h3, _⟩
    · simp only [exec, h1, Option.map_some', Option.some.injEq, Prod.mk.injEq] at hx
      obtain ⟨_, rfl⟩ := hx
      exact ⟨B, h2, by rw [h3.home_eq]; exact he⟩
    · simp only [exec, h1, Option.map_some', Option.some.injEq, Prod.mk.injEq] at hx
      obtain ⟨_, rfl⟩ := hx
      refine ⟨_, h2, ?_⟩
      rw [h3.home_eq]
      by_cases hb : home m e.key = home m key
      · rw [hb, Function.update_same]
        exact List.mem_cons_of_mem _ (hb ▸ he)
      · rw [Function.update_noteq hb]
        exact he
  | steal key =>
    cases hs : ht_steal m key with
    | none => simp [exec, hs] at hx
    | some res =>
      obtain ⟨p, m2⟩ := res
      simp only [exec, hs, Option.map_some', Option.some.injEq, Prod.mk.injEq] at hx
      obtain ⟨rfl, rfl⟩ := hx
      obtain ⟨k1, k2⟩ := steal_keeps h he hs
      by_cases hke : key = e.key
      · exact absurd (Or.inr ⟨by rw [hke], p, rfl, by rw [k1 hke]; exact hvs⟩) hrel
      · obtain ⟨B1, hB1, _, hmem⟩ := k2 hke
        exact ⟨B1, hB1, hmem⟩
  | delete key =>
    cases hs : ht_steal m key with
    | none => simp [exec, ht_delete, hs] at hx
    | some res =>
      obtain ⟨p, m2⟩ := res
      obtain ⟨k1, k2⟩ := steal_keeps h he hs
      by_cases hke : key = e.key
      · have hp := k1 hke
        have hval : p ≠ 0 ∧ p ≠ ENOENT_PTR := by rw [hp]; exact ⟨hv0, hvs⟩
        simp only [exec, ht_delete, hs, if_pos hval] at hx
        split_ifs at hx <;>
          simp only [Option.map_some', Option.some.injEq, Prod.mk.injEq] at hx
        all_goals exact absurd (Or.inl ⟨by rw [hke], hx.1.symm⟩) hrel
      · obtain ⟨B1, hB1, _, hmem⟩ := k2 hke
        simp only [exec, ht_delete, hs] at hx
        split_ifs at hx <;>
          simp only [Option.map_some', Option.some.injEq, Prod.mk.injEq] at hx
        all_goals first
          | exact ⟨B1, hx.2 ▸ hB1, hx.2 ▸ hmem⟩
          | exact ⟨B1, hx.2 ▸ hB1.emit _, hx.2 ▸ hmem⟩
  | delete_all => exact absurd rfl hop

theorem run_keeps (e : Entry) (hv0 : e.data ≠ 0) (hvs : e.data ≠ ENOENT_PTR) :
    ∀ (ops : List Op) (m m2 : Machine) (B : Nat → List Entry) (tr : List (Op × Ret)),
      Rep m B → e ∈ B (home m e.key) → (∀ op ∈ ops, op ≠ Op.delete_all) →
      run m ops = some (tr, m2) → (∀ x ∈ tr, ¬ releases e.key x) →
      ∃ B2, Rep m2 B2 ∧ e ∈ B2 (home m2 e.key)
  | [], m, m2, B, tr, h, he, _, hrun, _ => by
    simp only [run, Option.some.injEq, Prod.mk.injEq] at hrun
    exact ⟨B, hrun.2 ▸ h, hrun.2 ▸ he⟩
  | op :: ops, m, m2, B, tr, h, he, hops, hrun, hrel => by
    rw [run] at hrun
    cases hx : exec m op with
    | none => simp [hx] at hrun
    | some res =>
      obtain ⟨r, m1⟩ := res
      cases hr : run m1 ops with
      | none => simp [hx, hr] at hrun
      | some res2 =>
        obtain ⟨tr1, m3⟩ := res2
        simp only [hx, hr, Option.some.injEq, Prod.mk.injEq] at hrun
        obtain ⟨rfl, rfl⟩ := hrun
        obtain ⟨B1, hB1, he1⟩ := exec_keeps h he hv0 hvs hx (hops op (List.mem_cons_self _ _))
          (hrel (op, r) (List.mem_cons_self _ _))
        exact run_keeps e hv0 hvs ops m1 m3 B1 tr1 hB1 he1
          (fun o ho => hops o (List.mem_cons_of_mem _ ho)) hr
          (fun x hx2 => hrel x (List.mem_cons_of_mem _ hx2))

/-- C3, as amended: over every single-threaded sequence of `ht_add`, `ht_delete`
and `ht_steal` calls, once `ht_add(k, v)` has returned `0` with `v` neither
null nor the miss value of `ht_steal`, every later `ht_add(k, _)` returns
`-EEXIST` until an `ht_delete(k)` returns `0` or an `ht_steal(k)` returns
something else than the miss value. -/
theorem no_duplicate_add (m m1 m2 : Machine) (key data data2 : Nat) (ops : List Op)
    (tr : List (Op × Ret)) (h : Reachable m) (hv0 : data ≠ 0) (hvs : data ≠ ENOENT_PTR)
    (hadd : ht_add m key data = some (0, m1)) (hops : ∀ op ∈ ops, op ≠ Op.delete_all)
    (hrun : run m1 ops = some (tr, m2)) (hrel : ∀ x ∈ tr, ¬ releases key x) :
    ∃ m3, ht_add m2 key data2 = some (-EEXIST, m3) := by
  obtain ⟨B, hB⟩ := reachable_rep h
  rcases ht_add_cases hB key data with ⟨_, m4, h1, _⟩ | ⟨_, m4, h1, h2, h3, _⟩
  · rw [h1] at hadd
    simp [EEXIST] at hadd
  · rw [h1] at hadd
    simp only [Option.some.injEq, Prod.mk.injEq, true_and] at hadd
    subst hadd
    have hmem : (⟨m.heap.length + 1, key, data⟩ : Entry) ∈
        Function.update B (home m key)
          ({ addr := m.heap.length + 1, key := key, data := data } :: B (home m key))
          (home m4 (⟨m.heap.length + 1, key, data⟩ : Entry).key) := by
      rw [h3.home_eq, Function.update_same]
      exact List.mem_cons_self _ _
    obtain ⟨B2, hB2, he2⟩ := run_keeps ⟨m.heap.length + 1, key, data⟩ hv0 hvs ops m4 m2 _
      tr h2 hmem hops hrun hrel
    rcases ht_add_cases hB2 key data2 with ⟨_, m3, h5, _⟩ | ⟨hk, _⟩
    · exact ⟨m3, h5⟩
    · exact absurd (List.mem_map_of_mem Entry.key he2) hk

theorem no_duplicate_add_witness :
    Reachable fresh16 ∧ (97 : Nat) ≠ 0 ∧ 97 ≠ ENOENT_PTR ∧
      ht_add fresh16 1 97 = some (0, added fresh16 1 97) ∧
      run (added fresh16 1 97) [Op.steal 2, Op.delete 3] =
        some ([(Op.steal 2, Ret.ptr ENOENT_PTR), (Op.delete 3, Ret.int (-ENOENT))],
          added fresh16 1 97) ∧
      ∃ m3, ht_add (added fresh16 1 97) 1 98 = some (-EEXIST, m3) :=
  ⟨Reachable.new word_hash 0 16 4 0 (by decide), by decide, by decide, rfl, rfl,
    no_duplicate_add fresh16 (added fresh16 1 97) (added fresh16 1 97) 1 97 98
      [Op.steal 2, Op.delete 3]
      [(Op.steal 2, Ret.ptr ENOENT_PTR), (Op.delete 3, Ret.int (-ENOENT))]
      (Reachable.new word_hash 0 16 4 0 (by decide)) (by decide) (by decide) rfl
      (by decide) rfl
      (by
        intro x hx
        simp only [List.mem_cons, List.mem_singleton, List.not_mem_nil, or_false] at hx
        rcases hx with rfl | rfl <;> simp [releases])⟩

/-- C3 as stated fails: with a null payload `ht_add(1, NULL)` returns `0`, the
`ht_delete(1)` that follows unlinks the node but returns `-ENOENT`, and the
next `ht_add(1, _)` returns `0` again; with the miss value as payload the same
happens around an `ht_steal(1)` that returns the miss value. -/
theorem no_duplicate_counterexample :
    (∃ m1 tr m2 m3, ht_add fresh16 1 0 = some (0, m1) ∧
      run m1 [Op.delete 1] = some (tr, m2) ∧ tr = [(Op.delete 1, Ret.int (-ENOENT))] ∧
      (∀ x ∈ tr, ¬ releases 1 x) ∧ ht_add m2 1 7 = some (0, m3)) ∧
    (∃ m1 tr m2 m3, ht_add fresh16 1 ENOENT_PTR = some (0, m1) ∧
      run m1 [Op.steal 1] = some (tr, m2) ∧ tr = [(Op.steal 1, Ret.ptr ENOENT_PTR)] ∧
      (∀ x ∈ tr, ¬ releases 1 x) ∧ ht_add m2 1 7 = some (0, m3)) := by
  refine ⟨⟨added fresh16 1 0, [(Op.delete 1, Ret.int (-ENOENT))], _, _, rfl, rfl, rfl, ?_, rfl⟩,
    ⟨added fresh16 1 ENOENT_PTR, [(Op.steal 1, Ret.ptr ENOENT_PTR)], _, _, rfl, rfl, rfl, ?_,
      rfl⟩⟩
  · intro x hx
    simp only [List.mem_singleton] at hx
    subst hx
    simp [releases, ENOENT]
  · intro x hx
    simp only [List.mem_singleton] at hx
    subst hx
    simp [releases]

theorem not_mem_keys_erase {l : List Entry} {e : Entry} (hnd : (l.map Entry.key).Nodup)
    (he : e ∈ l) : e.key ∉ (l.erase e).map Entry.key := by
  obtain ⟨l1, l2, hs, hnot⟩ := List.eq_append_cons_of_mem he
  subst hs
  rw [List.erase_append_right _ hnot, List.erase_cons_head]
  exact (nodup_remove_middle hnd).2

theorem chain_find_erase {e : Entry} {key : Nat} (miss : Nat) (hk : e.key ≠ key) :
    ∀ l : List Entry, chain_find (l.erase e) key miss = chain_find l key miss
  | [] => rfl
  | x :: l => by
    by_cases hxe : x = e
    · subst hxe
      rw [List.erase_cons_head]
      simp [chain_find, List.find?_cons, hk]
    · have hne : (x == e) = false := by simpa using hxe
      rw [List.erase_cons, hne]
      simp only [Bool.false_eq_true, if_false]
      have ih := chain_find_erase miss hk l
      by_cases hxk : x.key = key
      · simp [chain_find, List.find?_cons, hxk]
      · simp only [chain_find, List.find?_cons, hxk, decide_False] at ih ⊢
        exact ih

/-- C4, as amended: in a single-threaded execution, once `ht_add(ht, k, v)` has
returned `0` with `v` neither null nor the miss value of `ht_steal`,
`ht_delete(ht, k)` returns `0` and a second `ht_delete(ht, k)` right after it
returns `-ENOENT`. -/
theorem delete_after_add (m m1 : Machine) (key data : Nat) (h : Reachable m)
    (hv0 : data ≠ 0) (hvs : data ≠ ENOENT_PTR) (hadd : ht_add m key data = some (0, m1)) :
    ∃ m2 m3, ht_delete m1 key = some (0, m2) ∧ ht_delete m2 key = some (-ENOENT, m3) := by
  obtain ⟨B, hB⟩ := reachable_rep h
  rcases ht_add_cases hB key data with ⟨_, m4, h1, _⟩ | ⟨hk, m4, h1, h2, h3, _⟩
  · rw [h1] at hadd
    simp [EEXIST] at hadd
  · rw [h1] at hadd
    simp only [Option.some.injEq, Prod.mk.injEq, true_and] at hadd
    subst hadd
    have hmem : (⟨m.heap.length + 1, key, data⟩ : Entry) ∈
        Function.update B (home m key)
          ({ addr := m.heap.length + 1, key := key, data := data } :: B (home m key))
          (home m4 (⟨m.heap.length + 1, key, data⟩ : Entry).key) := by
      rw [h3.home_eq, Function.update_same]
      exact List.mem_cons_self _ _
    obtain ⟨m5, h5, h6, h7, _⟩ := ht_steal_present h2 hmem
    have hval : data ≠ 0 ∧ data ≠ ENOENT_PTR := ⟨hv0, hvs⟩
    have habs : ∀ m6, SameTable m5 m6 →
        key ∉ (Function.update (Function.update B (home m key)
          ({ addr := m.heap.length + 1, key := key, data := data } :: B (home m key)))
          (home m4 key) ((Function.update B (home m key)
            ({ addr := m.heap.length + 1, key := key, data := data } :: B (home m key))
            (home m4 key)).erase ⟨m.heap.length + 1, key, data⟩) (home m6 key)).map
              Entry.key := by
      intro m6 h8
      rw [h8.home_eq, h7.home_eq, Function.update_same, h3.home_eq, Function.update_same,
        List.erase_cons_head]
      exact hk
    have hmiss : ¬ (ENOENT_PTR ≠ 0 ∧ ENOENT_PTR ≠ ENOENT_PTR) := fun hh => hh.2 rfl
    by_cases hf : m5.ht.free_fct ≠ 0
    · refine ⟨m5.emit (Event.call_rcu m5.ht.free_fct data),
        m5.emit (Event.call_rcu m5.ht.free_fct data), ?_, ?_⟩
      · simp only [ht_delete]
        rw [h5]
        simp only [if_pos hval, if_pos hf]
      · simp only [ht_delete]
        rw [ht_steal_absent (h6.emit _) (habs _ ⟨rfl, rfl⟩)]
        simp only [if_neg hmiss]
    · refine ⟨m5, m5, ?_, ?_⟩
      · simp only [ht_delete]
        rw [h5]
        simp only [if_pos hval, if_neg hf]
      · simp only [ht_delete]
        rw [ht_steal_absent h6 (habs _ (SameTable.refl _))]
        simp only [if_neg hmiss]

theorem delete_after_add_witness :
    Reachable fresh16 ∧ (97 : Nat) ≠ 0 ∧ 97 ≠ ENOENT_PTR ∧
      ht_add fresh16 1 97 = some (0, added fresh16 1 97) ∧
      ∃ m2 m3, ht_delete (added fresh16 1 97) 1 = some (0, m2) ∧
        ht_delete m2 1 = some (-ENOENT, m3) :=
  ⟨Reachable.new word_hash 0 16 4 0 (by decide), by decide, by decide, rfl,
    delete_after_add fresh16 (added fresh16 1 97) 1 97
      (Reachable.new word_hash 0 16 4 0 (by decide)) (by decide) (by decide) rfl⟩

/-- C4 as stated fails: after `ht_add(1, NULL)` has returned `0`, `ht_delete(1)`
returns `-ENOENT`, and so it does when the payload is the miss value of
`ht_steal`. -/
theorem delete_after_add_counterexample :
    (∃ m2, ht_add fresh16 1 0 = some (0, added fresh16 1 0) ∧
      ht_delete (added fresh16 1 0) 1 = some (-ENOENT, m2)) ∧
    (∃ m2, ht_add fresh16 1 ENOENT_PTR = some (0, added fresh16 1 ENOENT_PTR) ∧
      ht_delete (added fresh16 1 ENOENT_PTR) 1 = some (-ENOENT, m2)) ∧
    -ENOENT ≠ 0 :=
  ⟨⟨_, rfl, rfl⟩, ⟨_, rfl, rfl⟩, by decide⟩

/-- C5: in a single-threaded execution (where no chain holds a key twice)
`ht_steal(ht, k)` returns.  When `k` is linked it returns the payload stored
with `k` and unlinks just that node: `k`'s chain loses it, every other chain
stays, `ht_lookup(ht, k)` is null afterwards and the lookup of every other key
is as before.  When `k` is not linked it returns the miss value
`(void *)(unsigned long)-ENOENT` and changes nothing. -/
theorem ht_steal_contract (m : Machine) (key : Nat) (h : Reachable m) :
    ∃ r m1, ht_steal m key = some (r, m1) ∧
      (∀ e ∈ chains m (home m key), e.key = key →
        r = e.data ∧ ht_lookup m key = some e.data ∧
        (∀ i, i < m.ht.tbl.length → bucket_chain m1 i =
          some (if i = home m key then (chains m i).erase e else chains m i)) ∧
        ht_lookup m1 key = some 0 ∧ ∀ k2, k2 ≠ key → ht_lookup m1 k2 = ht_lookup m k2) ∧
      (key ∉ (chains m (home m key)).map Entry.key → r = ENOENT_PTR ∧ m1 = m) := by
  obtain ⟨B0, hB0⟩ := reachable_rep h
  have hB := hB0.canonical
  have hi := hB.home_lt key
  have hnd := hB.nodup _ hi
  rcases ht_steal_cases hB key with ⟨hk, h1⟩ | ⟨e, he, hek, m1, h1, h2, h3, _⟩
  · refine ⟨_, m, h1, fun e he hek => ?_, fun _ => ⟨rfl, rfl⟩⟩
    exact absurd (List.mem_map.mpr ⟨e, he, hek⟩) hk
  · refine ⟨_, m1, h1, fun e2 he2 hek2 => ?_, fun hk => ?_⟩
    · have hee : e2 = e :=
        List.inj_on_of_nodup_map hnd he2 he (hek2.trans hek.symm)
      subst hee
      subst hek
      refine ⟨rfl, ?_, fun i hi2 => ?_, ?_, fun k2 hk2 => ?_⟩
      · rw [hB.lookup]
        exact congrArg some (chain_find_of_mem 0 hnd he)
      · rw [h2.bucket_chain_eq (by rw [h3.2]; exact hi2)]
        by_cases hih : i = home m e2.key
        · subst hih
          rw [Function.update_same, if_pos rfl]
        · rw [Function.update_noteq hih, if_neg hih]
      · rw [h2.lookup, h3.home_eq, Function.update_same]
        exact congrArg some (chain_find_of_not_mem 0 (not_mem_keys_erase hnd he))
      · rw [h2.lookup, hB.lookup, h3.home_eq]
        by_cases hb : home m k2 = home m e2.key
        · rw [hb, Function.update_same]
          exact congrArg some (chain_find_erase 0 (Ne.symm hk2) _)
        · rw [Function.update_noteq hb]
    · exact absurd (List.mem_map.mpr ⟨e, he, hek⟩) hk

theorem ht_steal_contract_witness :
    Reachable (added fresh16 1 97) ∧
      ∃ r m1, ht_steal (added fresh16 1 97) 1 = some (r, m1) ∧
        (∀ e ∈ chains (added fresh16 1 97) (home (added fresh16 1 97) 1), e.key = 1 →
          r = e.data ∧ ht_lookup (added fresh16 1 97) 1 = some e.data ∧
          (∀ i, i < (added fresh16 1 97).ht.tbl.length → bucket_chain m1 i =
            some (if i = home (added fresh16 1 97) 1 then
              (chains (added fresh16 1 97) i).erase e else chains (added fresh16 1 97) i)) ∧
          ht_lookup m1 1 = some 0 ∧
          ∀ k2, k2 ≠ 1 → ht_lookup m1 k2 = ht_lookup (added fresh16 1 97) k2) ∧
        (1 ∉ (chains (added fresh16 1 97) (home (added fresh16 1 97) 1)).map Entry.key →
          r = ENOENT_PTR ∧ m1 = added fresh16 1 97) :=
  ⟨Reachable.step fresh16 (Op.add 1 97) (Ret.int 0) (added fresh16 1 97)
      (Reachable.new word_hash 0 16 4 0 (by decide)) rfl,
    ht_steal_contract (added fresh16 1 97) 1
      (Reachable.step fresh16 (Op.add 1 97) (Ret.int 0) (added fresh16 1 97)
        (Reachable.new word_hash 0 16 4 0 (by decide)) rfl)⟩

theorem table_events_of_no_nodes (fct : Nat) {B : Nat → List Entry} :
    ∀ (n i : Nat), linked B i n = 0 → table_events fct B i n = []
  | 0, _, _ => rfl
  | n + 1, i, h => by
    rw [linked] at h
    have h1 : (B i).length = 0 := by omega
    have h2 : linked B (i + 1) n = 0 := by omega
    rw [table_events, table_events_of_no_nodes fct n (i + 1) h2, List.length_eq_zero.mp h1]
    rfl

theorem fresh_delete_all_from (hash_fct : Nat → Nat → Nat → Nat)
    (free_fct init_size keylen hashseed : Nat) :
    ∀ (k i cnt : Nat), i + k = init_size →
      delete_all_from (k + 1) i cnt (ht_new hash_fct free_fct init_size keylen hashseed) =
        some (cnt, ht_new hash_fct free_fct init_size keylen hashseed)
  | 0, i, cnt, hik => by
    have hlt : ¬ i < init_size := by omega
    simp [delete_all_from, ht_new, hlt]
  | k + 1, i, cnt, hik => by
    have hlt : i < init_size := by omega
    have ih := fresh_delete_all_from hash_fct free_fct init_size keylen hashseed k (i + 1) cnt
      (by omega)
    have hset : (ht_new hash_fct free_fct init_size keylen hashseed).set_head i 0 =
        ht_new hash_fct free_fct init_size keylen hashseed := by
      have : (List.replicate init_size 0).set i 0 = List.replicate init_size 0 := by
        apply List.ext_getElem?
        intro j
        by_cases hji : i = j
        · subst hji
          simp [List.getElem?_set_self, List.getElem?_replicate, hlt]
        · rw [List.getElem?_set_ne hji]
      simp only [Machine.set_head, ht_new, this]
    have hhead : (ht_new hash_fct free_fct init_size keylen hashseed).ht.tbl[i]? = some 0 := by
      simp [ht_new, List.getElem?_replicate, hlt]
    have hsz : i < (ht_new hash_fct free_fct init_size keylen hashseed).ht.size_lookup := hlt
    rw [delete_all_from]
    simp only [hsz, if_true, hhead, hset, ih]

/-- C6: in a single-threaded execution `ht_delete_all(ht)` returns the number
of nodes that were linked in the table (as long as that number fits the `int`
it is counted in) and leaves every bucket head null, and `ht_destroy` returns
the same number; on a table without nodes neither logs a `call_rcu`.  On a
freshly created table of any size `ht_delete_all` and `ht_destroy` return `0`,
the first leaves the state as it is and the second only logs the two `free`
calls for the bucket array and the table. -/
theorem ht_delete_all_count (m : Machine) (h : Reachable m)
    (hb : linked_nodes m ≤ INT_MAX) :
    (∃ m1, ht_delete_all m = some ((linked_nodes m : Int), m1) ∧
      m1.ht.tbl.length = m.ht.tbl.length ∧
      (∀ i, i < m.ht.tbl.length → m1.ht.tbl[i]? = some 0 ∧ bucket_chain m1 i = some []) ∧
      (linked_nodes m = 0 → m1.log = m.log) ∧
      ht_destroy m = some ((linked_nodes m : Int),
        (m1.emit (Event.free Obj.buckets)).emit (Event.free Obj.table))) ∧
    ∀ (hash_fct : Nat → Nat → Nat → Nat) (free_fct init_size keylen hashseed : Nat),
      ht_delete_all (ht_new hash_fct free_fct init_size keylen hashseed) =
        some (0, ht_new hash_fct free_fct init_size keylen hashseed) ∧
      ht_destroy (ht_new hash_fct free_fct init_size keylen hashseed) =
        some (0, { ht_new hash_fct free_fct init_size keylen hashseed with
          log := [Event.calloc Obj.table, Event.calloc Obj.buckets,
            Event.free Obj.buckets, Event.free Obj.table] }) := by
  constructor
  · obtain ⟨B, hB⟩ := reachable_rep h
    obtain ⟨m1, h1, h2, h3, h4⟩ := ht_delete_all_spec hB
    rw [← hB.linked_nodes_eq, if_pos hb] at h1
    refine ⟨m1, h1, h3.2, fun i hi => ⟨?_, ?_⟩, fun h0 => ?_, ?_⟩
    · have hi1 : i < m1.ht.tbl.length := by rw [h3.2]; exact hi
      rw [head_eq hi1]
      exact congrArg some (h2.chain i hi1)
    · exact h2.bucket_chain_eq (by rw [h3.2]; exact hi)
    · rw [h4, table_events_of_no_nodes _ _ 0 (by rw [← hB.linked_nodes_eq]; exact h0)]
      simp
    · simp only [ht_destroy, h1]
  · intro hash_fct free_fct init_size keylen hashseed
    have hd : ht_delete_all (ht_new hash_fct free_fct init_size keylen hashseed) =
        some (0, ht_new hash_fct free_fct init_size keylen hashseed) := by
      have := fresh_delete_all_from hash_fct free_fct init_size keylen hashseed init_size 0 0
        (by simp)
      simp only [ht_delete_all]
      rw [show (ht_new hash_fct free_fct init_size keylen hashseed).ht.size_lookup = init_size
        from rfl, this]
      rfl
    refine ⟨hd, ?_⟩
    simp only [ht_destroy, hd]
    rfl

theorem ht_delete_all_count_witness :
    Reachable (added fresh16 1 97) ∧ linked_nodes (added fresh16 1 97) ≤ INT_MAX ∧
      linked_nodes (added fresh16 1 97) = 1 ∧
      ∃ m1, ht_delete_all (added fresh16 1 97) = some (1, m1) ∧
        ∀ i, i < 16 → m1.ht.tbl[i]? = some 0 := by
  have hr : Reachable (added fresh16 1 97) :=
    Reachable.step fresh16 (Op.add 1 97) (Ret.int 0) (added fresh16 1 97)
      (Reachable.new word_hash 0 16 4 0 (by decide)) rfl
  have hb : linked_nodes (added fresh16 1 97) ≤ INT_MAX := by decide
  obtain ⟨m1, h1, _, h3, _⟩ := (ht_delete_all_count (added fresh16 1 97) hr hb).1
  exact ⟨hr, hb, by decide, m1, h1, fun i hi => (h3 i hi).1⟩

/-- C8, at the failing input: on a table created with `free_fct = NULL` that
holds one node with payload `97`, `ht_delete_all` and `ht_destroy` log
`call_rcu(ht->free_fct, node->data)`, that is `call_rcu(NULL, 97)`, while
`ht_delete` on the same table only logs the deferred `free` of the node. -/
theorem delete_all_null_free_fct :
    (added fresh16 1 97).ht.free_fct = 0 ∧
    (ht_delete_all (added fresh16 1 97)).map (fun r => (r.1, r.2.log)) =
      some (1, [Event.calloc Obj.table, Event.calloc Obj.buckets, Event.calloc (Obj.node 1),
        Event.call_rcu 0 97, Event.call_rcu_free (Obj.node 1)]) ∧
    (ht_destroy (added fresh16 1 97)).map (fun r => (r.1, r.2.log)) =
      some (1, [Event.calloc Obj.table, Event.calloc Obj.buckets, Event.calloc (Obj.node 1),
        Event.call_rcu 0 97, Event.call_rcu_free (Obj.node 1), Event.free Obj.buckets,
        Event.free Obj.table]) ∧
    (ht_delete (added fresh16 1 97) 1).map (fun r => (r.1, r.2.log)) =
      some (0, [Event.calloc Obj.table, Event.calloc Obj.buckets, Event.calloc (Obj.node 1),
        Event.call_rcu_free (Obj.node 1)]) := by
  decide

/-- C9, at the failing input: `ht_add(1, 98)` on a table that already holds key
`1` returns `-EEXIST`; the call has logged the `calloc` of node `2` and nothing
else, so the node is neither freed nor handed to `call_rcu`, and it is not
linked: bucket `1` still holds node `1` alone. -/
theorem add_eexist_leaks :
    (ht_add (added fresh16 1 97) 1 98).map
        (fun r => (r.1, r.2.log, r.2.heap.length, bucket_chain r.2 1)) =
      some (-EEXIST, [Event.calloc Obj.table, Event.calloc Obj.buckets,
        Event.calloc (Obj.node 1), Event.calloc (Obj.node 2)], 2,
        some [{ addr := 1, key := 1, data := 97 }]) := by
  decide

/-- C10: in every state a single thread reaches from `ht_new` with a non-zero
size by `ht_add`, `ht_steal`, `ht_delete` and `ht_delete_all`, the walk from
each bucket head ends in `NULL`, the chain holds no key twice, and each node
sits in the bucket `hash_fct(key, keylen, hashseed) % size`, the two cached
sizes being the size of the bucket array. -/
theorem chain_invariant (m : Machine) (h : Reachable m) :
    0 < m.ht.tbl.length ∧ m.ht.size_add = m.ht.tbl.length ∧
      m.ht.size_lookup = m.ht.tbl.length ∧
      ∀ i, i < m.ht.tbl.length → ∃ l, bucket_chain m i = some l ∧
        l.length ≤ m.heap.length ∧ (l.map Entry.key).Nodup ∧
        ∀ e ∈ l, m.ht.hash_fct e.key m.ht.keylen m.ht.hashseed % m.ht.size_lookup = i := by
  obtain ⟨B, hB⟩ := reachable_rep h
  refine ⟨hB.size_pos, hB.size_add, hB.size_lookup, fun i hi => ?_⟩
  refine ⟨B i, hB.bucket_chain_eq hi, hB.short i hi, hB.nodup i hi, fun e he => ?_⟩
  rw [hB.size_lookup]
  exact hB.placed i hi e he

theorem chain_invariant_witness :
    Reachable (added fresh16 1 97) ∧
      bucket_chain (added fresh16 1 97) 1 = some [{ addr := 1, key := 1, data := 97 }] ∧
      ∀ i, i < (added fresh16 1 97).ht.tbl.length → ∃ l,
        bucket_chain (added fresh16 1 97) i = some l ∧
        l.length ≤ (added fresh16 1 97).heap.length ∧ (l.map Entry.key).Nodup ∧
        ∀ e ∈ l, (added fresh16 1 97).ht.hash_fct e.key (added fresh16 1 97).ht.keylen
          (added fresh16 1 97).ht.hashseed % (added fresh16 1 97).ht.size_lookup = i :=
  ⟨Reachable.step fresh16 (Op.add 1 97) (Ret.int 0) (added fresh16 1 97)
      (Reachable.new word_hash 0 16 4 0 (by decide)) rfl, by decide,
    (chain_invariant (added fresh16 1 97)
      (Reachable.step fresh16 (Op.add 1 97) (Ret.int 0) (added fresh16 1 97)
        (Reachable.new word_hash 0 16 4 0 (by decide)) rfl)).2.2.2⟩

/-! ## Grace periods -/

theorem scan_readers_input (gp_ctr : Nat) (load : Nat → Nat) :
    ∀ (input : List Nat) (cur_snap : Option (List Nat)) (qs : List Nat),
      (scan_readers gp_ctr load input cur_snap qs).1 =
        readers_in gp_ctr load rcu_state.RCU_READER_ACTIVE_OLD input
  | [], _, _ => rfl
  | index :: rest, cur_snap, qs => by
    simp only [scan_readers, scan_reader]
    cases hst : rcu_reader_state gp_ctr (load index) with
    | RCU_READER_ACTIVE_CURRENT =>
      cases cur_snap with
      | none => simp [readers_in, hst, scan_readers_input gp_ctr load rest]
      | some c => simp [readers_in, hst, scan_readers_input gp_ctr load rest]
    | RCU_READER_ACTIVE_OLD => simp [readers_in, hst, scan_readers_input gp_ctr load rest]
    | RCU_READER_INACTIVE => simp [readers_in, hst, scan_readers_input gp_ctr load rest]

theorem scan_readers_snap (gp_ctr : Nat) (load : Nat → Nat) :
    ∀ (input c qs : List Nat),
      (scan_readers gp_ctr load input (some c) qs).2 =
        (some ((readers_in gp_ctr load rcu_state.RCU_READER_ACTIVE_CURRENT input).reverse ++ c),
          (readers_in gp_ctr load rcu_state.RCU_READER_INACTIVE input).reverse ++ qs)
  | [], _, _ => rfl
  | index :: rest, c, qs => by
    simp only [scan_readers, scan_reader]
    cases hst : rcu_reader_state gp_ctr (load index) with
    | RCU_READER_ACTIVE_CURRENT =>
      simp [readers_in, hst, scan_readers_snap gp_ctr load rest, cds_list_move]
    | RCU_READER_ACTIVE_OLD =>
      simp [readers_in, hst, scan_readers_snap gp_ctr load rest, cds_list_move]
    | RCU_READER_INACTIVE =>
      simp [readers_in, hst, scan_readers_snap gp_ctr load rest, cds_list_move]

theorem scan_readers_null (gp_ctr : Nat) (load : Nat → Nat) :
    ∀ (input qs : List Nat),
      (scan_readers gp_ctr load input none qs).2 =
        (none, (quiescent_in gp_ctr load input).reverse ++ qs)
  | [], _ => rfl
  | index :: rest, qs => by
    simp only [scan_readers, scan_reader]
    cases hst : rcu_reader_state gp_ctr (load index) with
    | RCU_READER_ACTIVE_CURRENT =>
      simp [quiescent_in, hst, scan_readers_null gp_ctr load rest, cds_list_move]
    | RCU_READER_ACTIVE_OLD =>
      simp [quiescent_in, hst, scan_readers_null gp_ctr load rest, cds_list_move]
    | RCU_READER_INACTIVE =>
      simp [quiescent_in, hst, scan_readers_null gp_ctr load rest, cds_list_move]

theorem scan_readers_count (gp_ctr : Nat) (load : Nat → Nat) (a : Nat) :
    ∀ (input : List Nat) (cur_snap : Option (List Nat)) (qs : List Nat),
      List.count a (scan_readers gp_ctr load input cur_snap qs).1 +
          List.count a ((scan_readers gp_ctr load input cur_snap qs).2.1.getD []) +
          List.count a (scan_readers gp_ctr load input cur_snap qs).2.2 =
        List.count a input + List.count a (cur_snap.getD []) + List.count a qs
  | [], _, _ => by simp [scan_readers]
  | index :: rest, cur_snap, qs => by
    simp only [scan_readers, scan_reader]
    cases hst : rcu_reader_state gp_ctr (load index) with
    | RCU_READER_ACTIVE_CURRENT =>
      cases cur_snap with
      | none =>
        have ih := scan_readers_count gp_ctr load a rest none (cds_list_move index qs)
        simp only [cds_list_move, List.count_cons, Option.getD_none, Bool.false_eq_true,
          if_false] at ih ⊢
        omega
      | some c =>
        have ih := scan_readers_count gp_ctr load a rest (some (cds_list_move index c)) qs
        simp only [cds_list_move, List.count_cons, Option.getD_some, Bool.false_eq_true,
          if_false] at ih ⊢
        omega
    | RCU_READER_ACTIVE_OLD =>
      have ih := scan_readers_count gp_ctr load a rest cur_snap qs
      simp only [List.count_cons, if_true] at ih ⊢
      omega
    | RCU_READER_INACTIVE =>
      have ih := scan_readers_count gp_ctr load a rest cur_snap (cds_list_move index qs)
      simp only [cds_list_move, List.count_cons, Bool.false_eq_true, if_false] at ih ⊢
      omega

theorem scan_readers_perm (gp_ctr : Nat) (load : Nat → Nat) (input : List Nat)
    (cur_snap : Option (List Nat)) (qs : List Nat) :
    ((scan_readers gp_ctr load input cur_snap qs).1 ++
        (scan_readers gp_ctr load input cur_snap qs).2.1.getD [] ++
        (scan_readers gp_ctr load input cur_snap qs).2.2).Perm
      (input ++ cur_snap.getD [] ++ qs) := by
  rw [List.perm_iff_count]
  intro a
  simp only [List.count_append]
  exact scan_readers_count gp_ctr load a input cur_snap qs

theorem wait_pass_facts {incoherent : Bool} {gp_ctr : Nat} {load : Nat → Nat}
    {s s1 : WaitState} {out : Bool}
    (h : wait_pass incoherent gp_ctr load s = some (out, s1)) :
    s1.input = (scan_readers gp_ctr load s.input s.cur_snap s.qs).1 ∧
      s1.cur_snap = (scan_readers gp_ctr load s.input s.cur_snap s.qs).2.1 ∧
      s1.qs = (scan_readers gp_ctr load s.input s.cur_snap s.qs).2.2 ∧
      s1.time = s.time + 1 ∧ (out = true ↔ s1.input = []) := by
  unfold wait_pass at h
  by_cases hov : s.wait_loops + 1 > INT_MAX
  · rw [if_pos hov] at h
    exact absurd h (by simp)
  · rw [if_neg hov] at h
    by_cases hemp : (scan_readers gp_ctr load s.input s.cur_snap s.qs).1 = []
    · simp only [hemp, if_true, Option.some.injEq, Prod.mk.injEq] at h
      obtain ⟨rfl, rfl⟩ := h
      exact ⟨hemp.symm, rfl, rfl, rfl, by simp⟩
    · simp only [hemp, if_false, Option.some.injEq, Prod.mk.injEq] at h
      obtain ⟨rfl, rfl⟩ := h
      exact ⟨rfl, rfl, rfl, rfl, by simp [hemp]⟩

theorem wait_pass_some (incoherent : Bool) (gp_ctr : Nat) (load : Nat → Nat) (s : WaitState)
    (hw : s.wait_loops < INT_MAX) :
    ∃ out s1, wait_pass incoherent gp_ctr load s = some (out, s1) ∧
      s1.wait_loops ≤ s.wait_loops + 1 := by
  have hov : ¬ s.wait_loops + 1 > INT_MAX := by omega
  unfold wait_pass
  rw [if_neg hov]
  by_cases hemp : (scan_readers gp_ctr load s.input s.cur_snap s.qs).1 = []
  · rw [if_pos hemp]
    exact ⟨_, _, rfl, le_refl _⟩
  · rw [if_neg hemp]
    refine ⟨_, _, rfl, ?_⟩
    show (if incoherent = true ∧ s.wait_loops + 1 = KICK_READER_LOOPS then 0
      else s.wait_loops + 1) ≤ s.wait_loops + 1
    split <;> omega

theorem wait_for_readers_facts {incoherent : Bool} {gp_ctr : Nat} {obs : Nat → Nat → Nat} :
    ∀ (fuel : Nat) {s s2 : WaitState},
      wait_for_readers incoherent gp_ctr obs fuel s = some s2 →
      s2.input = [] ∧ (s.cur_snap = none → s2.cur_snap = none) ∧
        (s2.input ++ s2.cur_snap.getD [] ++ s2.qs).Perm (s.input ++ s.cur_snap.getD [] ++ s.qs)
  | 0, _, _, h => by simp [wait_for_readers] at h
  | fuel + 1, s, s2, h => by
    rw [wait_for_readers] at h
    cases hp : wait_pass incoherent gp_ctr (obs s.time) s with
    | none => simp [hp] at h
    | some res =>
      obtain ⟨out, s1⟩ := res
      obtain ⟨f1, f2, f3, _, f5⟩ := wait_pass_facts hp
      have hperm : (s1.input ++ s1.cur_snap.getD [] ++ s1.qs).Perm
          (s.input ++ s.cur_snap.getD [] ++ s.qs) := by
        rw [f1, f2, f3]
        exact scan_readers_perm gp_ctr (obs s.time) s.input s.cur_snap s.qs
      have hnull : s.cur_snap = none → s1.cur_snap = none := fun hn => by
        rw [f2, hn, scan_readers_null]
      cases out with
      | true =>
        simp only [hp, Option.some.injEq] at h
        subst h
        exact ⟨f5.mp rfl, hnull, hperm⟩
      | false =>
        simp only [hp] at h
        obtain ⟨g1, g2, g3⟩ := wait_for_readers_facts fuel h
        exact ⟨g1, fun hn => g2 (hnull hn), g3.trans hperm⟩

/-- C11: one turn of the loop of `wait_for_readers` (its counter below
`INT_MAX`) yields a result and partitions the input list by reader state.
With a `cur_snap_readers` list the inactive readers go to `qsreaders`, the
active readers of the current phase go to `cur_snap_readers` and the active
readers of the old phase stay, in order; with `NULL` the inactive and the
current ones both go to `qsreaders` and only the old ones stay.  The three
lists together hold the same readers as before, each as often, and the turn
ends the loop exactly when the input list is empty; so a call that returns
leaves the input list empty. -/
theorem wait_pass_partition (incoherent : Bool) (gp_ctr : Nat) (load : Nat → Nat)
    (s : WaitState) (hw : s.wait_loops < INT_MAX) :
    ∃ out s1, wait_pass incoherent gp_ctr load s = some (out, s1) ∧
      s1.input = readers_in gp_ctr load rcu_state.RCU_READER_ACTIVE_OLD s.input ∧
      (∀ c, s.cur_snap = some c →
        s1.cur_snap = some
          ((readers_in gp_ctr load rcu_state.RCU_READER_ACTIVE_CURRENT s.input).reverse ++ c) ∧
        s1.qs = (readers_in gp_ctr load rcu_state.RCU_READER_INACTIVE s.input).reverse ++ s.qs) ∧
      (s.cur_snap = none →
        s1.cur_snap = none ∧ s1.qs = (quiescent_in gp_ctr load s.input).reverse ++ s.qs) ∧
      (s1.input ++ s1.cur_snap.getD [] ++ s1.qs).Perm
        (s.input ++ s.cur_snap.getD [] ++ s.qs) ∧
      (out = true ↔ s1.input = []) ∧
      ∀ (obs : Nat → Nat → Nat) (fuel : Nat) (s2 : WaitState),
        wait_for_readers incoherent gp_ctr obs fuel s = some s2 → s2.input = [] := by
  obtain ⟨out, s1, hp, _⟩ := wait_pass_some incoherent gp_ctr load s hw
  obtain ⟨f1, f2, f3, _, f5⟩ := wait_pass_facts hp
  refine ⟨out, s1, hp, ?_, fun c hc => ?_, fun hn => ?_, ?_, f5, fun obs fuel s2 h2 => ?_⟩
  · rw [f1, scan_readers_input]
  · rw [f2, f3, hc, scan_readers_snap]
    exact ⟨rfl, rfl⟩
  · rw [f2, f3, hn, scan_readers_null]
    exact ⟨rfl, rfl⟩
  · rw [f1, f2, f3]
    exact scan_readers_perm gp_ctr load s.input s.cur_snap s.qs
  · exact (wait_for_readers_facts fuel h2).1

theorem wait_pass_partition_witness :
    wait3.wait_loops < INT_MAX ∧
      ∃ out s1, wait_pass false RCU_GP_COUNT (obs3 0) wait3 = some (out, s1) ∧
        s1.input = [30] ∧ s1.cur_snap = some [20] ∧ s1.qs = [10] ∧ out = false := by
  obtain ⟨out, s1, h, h1, h2, _, _, h5, _⟩ :=
    wait_pass_partition false RCU_GP_COUNT (obs3 0) wait3 (by decide)
  have e1 : s1.input = [30] := by rw [h1]; decide
  refine ⟨by decide, out, s1, h, e1, ?_, ?_, ?_⟩
  · rw [(h2 [] rfl).1]; decide
  · rw [(h2 [] rfl).2]; decide
  · cases out with
    | false => rfl
    | true =>
      rw [h5.mp rfl] at e1
      exact absurd e1 (by decide)

theorem inactive_of_depth_zero (gp_ctr v : Nat) (h : v &&& RCU_GP_CTR_NEST_MASK = 0) :
    rcu_reader_state gp_ctr v = rcu_state.RCU_READER_INACTIVE := by
  simp [rcu_reader_state, h]

theorem wait_for_readers_quiet (incoherent : Bool) (gp_ctr : Nat) (obs : Nat → Nat → Nat)
    (fuel : Nat) (s : WaitState) (hw : s.wait_loops < INT_MAX)
    (hq : ∀ r, obs s.time r &&& RCU_GP_CTR_NEST_MASK = 0) :
    ∃ s2, wait_for_readers incoherent gp_ctr obs (fuel + 1) s = some s2 ∧
      s2.wait_loops ≤ s.wait_loops + 1 := by
  obtain ⟨out, s1, hp, hle⟩ := wait_pass_some incoherent gp_ctr (obs s.time) s hw
  obtain ⟨f1, _, _, _, f5⟩ := wait_pass_facts hp
  have hemp : s1.input = [] := by
    rw [f1, scan_readers_input, readers_in, List.filter_eq_nil_iff]
    intro r _
    simp [inactive_of_depth_zero gp_ctr _ (hq r)]
  have hout : out = true := f5.mpr hemp
  subst hout
  exact ⟨s1, by rw [wait_for_readers, hp], hle⟩

/-- C12: a grace period performed by `synchronize_rcu` preserves the reader
registry.  Whenever the call completes, the registry holds the same readers as
when it started, each as often (so each once), whatever the loads of the
readers' counters returned meanwhile, and a caller that performed the grace
period on a non-empty registry has flipped the phase bit of `rcu_gp.ctr`.
With an empty registry the call completes, whatever its fuel, and leaves the
registry, `rcu_gp.ctr` and the rest of the state as they were; so does the
call of a thread that is not first in the queue.  On any registry the call
completes, within one turn for each wait, when every reader is seen outside
its read sections. -/
theorem synchronize_rcu_registry (incoherent first : Bool) (obs : Nat → Nat → Nat)
    (fuel : Nat) (e : Engine) :
    (∀ e1, synchronize_rcu incoherent first obs fuel e = some e1 →
      e1.registry.Perm e.registry ∧ (e.registry.Nodup → e1.registry.Nodup) ∧
      (first = true → e.registry ≠ [] → e1.gp.ctr = e.gp.ctr ^^^ RCU_GP_CTR_PHASE)) ∧
    (e.registry = [] → synchronize_rcu incoherent first obs fuel e = some e) ∧
    (first = false → synchronize_rcu incoherent first obs fuel e = some e) ∧
    ((∀ t r, obs t r &&& RCU_GP_CTR_NEST_MASK = 0) → 0 < fuel →
      ∃ e1, synchronize_rcu incoherent first obs fuel e = some e1 ∧
        e1.registry.Perm e.registry) := by
  have hmain : ∀ e1, synchronize_rcu incoherent first obs fuel e = some e1 →
      e1.registry.Perm e.registry ∧
      (first = true → e.registry ≠ [] → e1.gp.ctr = e.gp.ctr ^^^ RCU_GP_CTR_PHASE) := by
    intro e1 h
    unfold synchronize_rcu at h
    by_cases hf : first = false
    · rw [if_pos hf] at h
      cases h
      exact ⟨List.Perm.refl _, fun ht _ => absurd (hf ▸ ht) (by decide)⟩
    · rw [if_neg hf] at h
      by_cases hr : e.registry = []
      · rw [if_pos hr] at h
        cases h
        exact ⟨List.Perm.refl _, fun _ hne => absurd hr hne⟩
      · rw [if_neg hr] at h
        cases h1 : wait_for_readers incoherent e.gp.ctr obs fuel
            { time := e.time, wait_loops := 0, futex := e.gp.futex, input := e.registry,
              cur_snap := some [], qs := [] } with
        | none => simp [h1] at h
        | some s1 =>
          simp only [h1] at h
          cases h2 : wait_for_readers incoherent (e.gp.ctr ^^^ RCU_GP_CTR_PHASE) obs fuel
              { time := s1.time, wait_loops := 0, futex := s1.futex,
                input := s1.cur_snap.getD [], cur_snap := none, qs := s1.qs } with
          | none => simp [h2] at h
          | some s2 =>
            simp only [h2, Option.some.injEq] at h
            subst h
            obtain ⟨a1, _, a3⟩ := wait_for_readers_facts fuel h1
            obtain ⟨b1, b2, b3⟩ := wait_for_readers_facts fuel h2
            have b2n := b2 rfl
            refine ⟨?_, fun _ _ => rfl⟩
            show (cds_list_splice s2.qs s1.input).Perm e.registry
            rw [a1] at a3
            rw [b1, b2n] at b3
            simp only [List.nil_append, List.append_nil, Option.getD_none,
              Option.getD_some] at a3 b3
            rw [cds_list_splice, a1, List.append_nil]
            exact b3.trans a3
  refine ⟨fun e1 h => ⟨(hmain e1 h).1, fun hnd => (List.Perm.nodup_iff (hmain e1 h).1).mpr hnd,
    (hmain e1 h).2⟩, fun hr => ?_, fun hf => ?_, fun hq hpos => ?_⟩
  · unfold synchronize_rcu
    by_cases hf : first = false
    · rw [if_pos hf]
    · rw [if_neg hf, if_pos hr]
  · unfold synchronize_rcu
    rw [if_pos hf]
  · have hsome : ∃ e1, synchronize_rcu incoherent first obs fuel e = some e1 := by
      obtain ⟨f, rfl⟩ : ∃ f, fuel = f + 1 := ⟨fuel - 1, by omega⟩
      unfold synchronize_rcu
      by_cases hf : first = false
      · rw [if_pos hf]
        exact ⟨e, rfl⟩
      · rw [if_neg hf]
        by_cases hr : e.registry = []
        · rw [if_pos hr]
          exact ⟨e, rfl⟩
        · rw [if_neg hr]
          obtain ⟨s1, h1, _⟩ := wait_for_readers_quiet incoherent e.gp.ctr obs f
            { time := e.time, wait_loops := 0, futex := e.gp.futex, input := e.registry,
              cur_snap := some [], qs := [] } (show (0 : Nat) < INT_MAX by decide)
            (fun r => hq _ r)
          obtain ⟨s2, h2, _⟩ := wait_for_readers_quiet incoherent
            (e.gp.ctr ^^^ RCU_GP_CTR_PHASE) obs f
            { time := s1.time, wait_loops := 0, futex := s1.futex,
              input := s1.cur_snap.getD [], cur_snap := none, qs := s1.qs }
            (show (0 : Nat) < INT_MAX by decide) (fun r => hq _ r)
          simp only [h1, h2]
          exact ⟨_, rfl⟩
    obtain ⟨e1, h1⟩ := hsome
    exact ⟨e1, h1, (hmain e1 h1).1⟩

theorem synchronize_rcu_registry_witness :
    synchronize_rcu false true obs3 3 engine3 =
        some { gp := { ctr := RCU_GP_COUNT ^^^ RCU_GP_CTR_PHASE, futex := 0 },
               registry := [20, 30, 10], time := 6 } ∧
      ([20, 30, 10] : List Nat).Perm engine3.registry ∧
      engine0.registry = [] ∧ synchronize_rcu false true obs3 0 engine0 = some engine0 := by
  have hrun : synchronize_rcu false true obs3 3 engine3 =
      some { gp := { ctr := RCU_GP_COUNT ^^^ RCU_GP_CTR_PHASE, futex := 0 },
             registry := [20, 30, 10], time := 6 } := by decide
  exact ⟨hrun, ((synchronize_rcu_registry false true obs3 3 engine3).1 _ hrun).1, rfl,
    (synchronize_rcu_registry false true obs3 0 engine0).2.1 rfl⟩

end UrcuHt
